import Mathlib

/-!
Shallow embedding of `validate-members.py` (repository `aaronprisk/terra`).

The script reconciles the records of `feeds.json` against the Launchpad
`~ubuntumembers` roster.  This file embeds, directly from the source:

* the JSON values that Python's `json.load` produces (`Json`), together with
  the exact serialization `json.dump(feeds, f, indent=2, ensure_ascii=False)`
  used by `save_feeds` (`renderJson`), and a parser mirroring `json.load`
  (`parseValue` / `loads`);
* the pipeline functions `load_feeds`, `save_feeds`, `get_unique_nicks`,
  `get_ubuntu_members`, `check_user_exists`, `check_single_nick`,
  `validate_memberships` and the post-validation part of `main`.

Machine integers do not occur; Python integers are embedded as `Int`.
Floating point numbers are outside the model: the embedded parser answers
`none` on documents containing them, so every theorem below about a loaded
document is about float-free JSON.
-/

set_option maxRecDepth 100000
set_option maxHeartbeats 2000000

namespace Terra

/-- JSON values as Python's `json` module represents them after `json.load`:
`None`, `bool`, `int`, `str`, `list`, `dict`.  A `dict` is an insertion-ordered
association list (CPython dicts preserve insertion order); `json.load` builds
it key by key, a repeated key overwriting the value while keeping the first
position (`insertKey` below).  Floats are outside the model. -/
inductive Json where
  | null
  | bool (b : Bool)
  | num (n : Int)
  | str (s : String)
  | arr (items : List Json)
  | obj (fields : List (String × Json))

/-- The character `{` (written by code point to keep it out of string literals). -/
def obraceC : Char := '\x7b'

/-- The character `}`. -/
def cbraceC : Char := '\x7d'

/-- Lowercase hexadecimal digit, as CPython's `json` encoder emits in `\u00xx`
escapes. -/
def hexDigitChar (n : Nat) : Char :=
  if n < 10 then Char.ofNat (48 + n) else Char.ofNat (87 + n)

/-- Decimal digit character. -/
def digitChar (n : Nat) : Char := Char.ofNat (48 + n)

/-- How `json.dump(..., ensure_ascii=False)` escapes one character inside a
string literal: `"` and `\` and the named control characters get two-character
escapes, the remaining control characters below `0x20` get `\u00xx`, and every
other character (including non-ASCII, since `ensure_ascii=False`) is written
as itself. -/
def escapeChar (c : Char) : List Char :=
  if c = '"' then ['\\', '"']
  else if c = '\\' then ['\\', '\\']
  else if c = '\n' then ['\\', 'n']
  else if c = '\t' then ['\\', 't']
  else if c = '\r' then ['\\', 'r']
  else if c = Char.ofNat 8 then ['\\', 'b']
  else if c = Char.ofNat 12 then ['\\', 'f']
  else if c.toNat < 32 then
    ['\\', 'u', '0', '0', hexDigitChar (c.toNat / 16), hexDigitChar (c.toNat % 16)]
  else [c]

/-- A JSON string literal: quote, escaped characters, quote. -/
def renderString (s : String) : List Char :=
  '"' :: (s.data.map escapeChar).flatten ++ ['"']

/-- Decimal digits with explicit fuel; the fuel is structural so that the
function reduces definitionally.  With `n < fuel` it writes the digits of `n`,
most significant first. -/
def natToCharsF : Nat → Nat → List Char
  | 0, _ => []
  | fuel + 1, n =>
    if n < 10 then [digitChar n]
    else natToCharsF fuel (n / 10) ++ [digitChar (n % 10)]

/-- Decimal digits of a natural number, most significant first, no sign,
exactly as Python's `str` writes it. -/
def natToChars (n : Nat) : List Char := natToCharsF (n + 1) n

/-- Python's `str` on an `int`: optional minus sign and decimal digits. -/
def intToChars (i : Int) : List Char :=
  if i < 0 then '-' :: natToChars i.natAbs else natToChars i.toNat

/-- The newline-plus-indentation that `json.dump(..., indent=2)` writes before
an element at nesting level `lvl`. -/
def indentChars (lvl : Nat) : List Char :=
  '\n' :: List.replicate (2 * lvl) ' '

mutual

/-- Exactly the characters `json.dump(v, f, indent=2, ensure_ascii=False)`
writes for the value `v` at nesting level `lvl` (with the default separators
`,` and `: ` that apply when `indent` is given). -/
def renderJson (lvl : Nat) : Json → List Char
  | .null => 'n' :: ['u', 'l', 'l']
  | .bool true => 't' :: ['r', 'u', 'e']
  | .bool false => 'f' :: ['a', 'l', 's', 'e']
  | .num n => intToChars n
  | .str s => renderString s
  | .arr [] => ['[', ']']
  | .arr (x :: xs) =>
    '[' :: indentChars (lvl + 1) ++ renderJson (lvl + 1) x ++
      renderItems (lvl + 1) xs ++ indentChars lvl ++ [']']
  | .obj [] => [obraceC, cbraceC]
  | .obj ((k, v) :: fs) =>
    obraceC :: indentChars (lvl + 1) ++ renderString k ++ [':', ' '] ++
      renderJson (lvl + 1) v ++ renderFields (lvl + 1) fs ++ indentChars lvl ++ [cbraceC]

/-- The `,` + newline + indent + element text for each later array element. -/
def renderItems (lvl : Nat) : List Json → List Char
  | [] => []
  | x :: xs => ',' :: indentChars lvl ++ renderJson lvl x ++ renderItems lvl xs

/-- The `,` + newline + indent + member text for each later object member. -/
def renderFields (lvl : Nat) : List (String × Json) → List Char
  | [] => []
  | (k, v) :: fs =>
    ',' :: indentChars lvl ++ renderString k ++ [':', ' '] ++
      renderJson lvl v ++ renderFields lvl fs

end

/-- `json.dumps(v, indent=2, ensure_ascii=False)` as a string. -/
def dumps (v : Json) : String := ⟨renderJson 0 v⟩

/-! ## A parser mirroring `json.load`

`load_feeds` calls `json.load`; the parser below follows CPython's `json`
decoder in strict mode: the whitespace characters are space, tab, newline and
carriage return; unescaped control characters inside strings are rejected;
numbers may not have leading zeros; trailing data after the document is
rejected; a repeated object key keeps its first position and its last value.
Deviations, all outside the claims: floats (`1.5`, `1e3`, `NaN`, `Infinity`)
and `\uXXXX` escapes denoting surrogates make the embedded parser answer
`none` where CPython would produce a float or a lone-surrogate string. -/

/-- The characters CPython's `json` decoder skips between tokens. -/
def isWsB (c : Char) : Bool := c = ' ' || c = '\t' || c = '\n' || c = '\r'

/-- Drop leading JSON whitespace. -/
def skipWs : List Char → List Char
  | [] => []
  | c :: rest => if isWsB c then skipWs rest else c :: rest

/-- Value of one hexadecimal digit, upper or lower case. -/
def hexVal? (c : Char) : Option Nat :=
  if c.isDigit then some (c.toNat - 48)
  else if 97 ≤ c.toNat && c.toNat ≤ 102 then some (c.toNat - 87)
  else if 65 ≤ c.toNat && c.toNat ≤ 70 then some (c.toNat - 55)
  else none

/-- Parse the body of a JSON string literal (the opening quote is already
consumed): returns the decoded characters and the input after the closing
quote.  Escapes are `\" \\ \/ \b \f \n \r \t \uXXXX`; an unescaped control
character is an error (CPython strict mode). -/
def parseStringBody : List Char → Option (List Char × List Char)
  | [] => none
  | c :: rest =>
    if c = '"' then some ([], rest)
    else if c = '\\' then
      match rest with
      | [] => none
      | e :: rest2 =>
        if e = '"' then (parseStringBody rest2).map (fun p => ('"' :: p.1, p.2))
        else if e = '\\' then (parseStringBody rest2).map (fun p => ('\\' :: p.1, p.2))
        else if e = '/' then (parseStringBody rest2).map (fun p => ('/' :: p.1, p.2))
        else if e = 'b' then (parseStringBody rest2).map (fun p => (Char.ofNat 8 :: p.1, p.2))
        else if e = 'f' then (parseStringBody rest2).map (fun p => (Char.ofNat 12 :: p.1, p.2))
        else if e = 'n' then (parseStringBody rest2).map (fun p => ('\n' :: p.1, p.2))
        else if e = 'r' then (parseStringBody rest2).map (fun p => ('\r' :: p.1, p.2))
        else if e = 't' then (parseStringBody rest2).map (fun p => ('\t' :: p.1, p.2))
        else if e = 'u' then
          match rest2 with
          | h1 :: h2 :: h3 :: h4 :: rest3 =>
            match hexVal? h1, hexVal? h2, hexVal? h3, hexVal? h4 with
            | some a, some b, some c3, some d =>
              let v := ((a * 16 + b) * 16 + c3) * 16 + d
              if v < 55296 || 57344 ≤ v then
                (parseStringBody rest3).map (fun p => (Char.ofNat v :: p.1, p.2))
              else none
            | _, _, _, _ => none
          | _ => none
        else none
    else if c.toNat < 32 then none
    else (parseStringBody rest).map (fun p => (c :: p.1, p.2))

/-- Split off the longest prefix of decimal digits. -/
def takeDigits : List Char → List Char × List Char
  | [] => ([], [])
  | c :: rest =>
    if c.isDigit then
      let p := takeDigits rest
      (c :: p.1, p.2)
    else ([], c :: rest)

/-- Numeric value of a digit character. -/
def digitValN (c : Char) : Nat := c.toNat - 48

/-- Value of a run of decimal digits, most significant first. -/
def natFromDigits (ds : List Char) : Nat :=
  ds.foldl (fun a c => a * 10 + digitValN c) 0

/-- Parse an unsigned JSON integer: at least one digit, no leading zero on a
multi-digit number, and not followed by `.`, `e` or `E` (which would make it a
float, outside the model). -/
def parseUnsigned (s : List Char) : Option (Nat × List Char) :=
  let p := takeDigits s
  match p.1 with
  | [] => none
  | d :: ds' =>
    if d = '0' && !ds'.isEmpty then none
    else
      match p.2 with
      | [] => some (natFromDigits p.1, [])
      | c :: r => if c = '.' || c = 'e' || c = 'E' then none
                  else some (natFromDigits p.1, c :: r)

/-- Parse a JSON integer with optional minus sign. -/
def parseNumber (s : List Char) : Option (Int × List Char) :=
  match s with
  | [] => none
  | c :: rest =>
    if c = '-' then (parseUnsigned rest).map (fun p => (-(p.1 : Int), p.2))
    else (parseUnsigned (c :: rest)).map (fun p => ((p.1 : Int), p.2))

/-- CPython `dict` assignment `d[k] = v`: if the key is present its value is
replaced in place, otherwise the pair is appended at the end. -/
def insertKey : List (String × Json) → String → Json → List (String × Json)
  | [], k, v => [(k, v)]
  | (k', v') :: rest, k, v =>
    if k' = k then (k', v) :: rest else (k', v') :: insertKey rest k v

/-- Building a CPython `dict` from a parsed pair sequence, in order. -/
def buildDict (ps : List (String × Json)) : List (String × Json) :=
  ps.foldl (fun acc p => insertKey acc p.1 p.2) []

mutual

/-- Parse one JSON value from the head of the input (no leading whitespace).
`fuel` bounds the recursion depth; `loads` passes more fuel than any input can
consume. -/
def parseValue : Nat → List Char → Option (Json × List Char)
  | 0, _ => none
  | fuel + 1, s =>
    match s with
    | [] => none
    | c :: rest =>
      if c = 'n' then
        match rest with
        | 'u' :: 'l' :: 'l' :: r => some (.null, r)
        | _ => none
      else if c = 't' then
        match rest with
        | 'r' :: 'u' :: 'e' :: r => some (.bool true, r)
        | _ => none
      else if c = 'f' then
        match rest with
        | 'a' :: 'l' :: 's' :: 'e' :: r => some (.bool false, r)
        | _ => none
      else if c = '"' then
        (parseStringBody rest).map (fun p => (.str ⟨p.1⟩, p.2))
      else if c = '[' then
        match skipWs rest with
        | ']' :: r => some (.arr [], r)
        | s1 => (parseItems fuel s1).map (fun p => (.arr p.1, p.2))
      else if c = obraceC then
        match skipWs rest with
        | c2 :: r =>
          if c2 = cbraceC then some (.obj [], r)
          else (parseFields fuel (c2 :: r)).map (fun p => (.obj (buildDict p.1), p.2))
        | [] => none
      else if c = '-' || c.isDigit then
        (parseNumber (c :: rest)).map (fun p => (.num p.1, p.2))
      else none

/-- Parse the elements of a non-empty array: value, then `,` and more elements
or the closing `]`. -/
def parseItems : Nat → List Char → Option (List Json × List Char)
  | 0, _ => none
  | fuel + 1, s =>
    match parseValue fuel s with
    | none => none
    | some (v, r) =>
      match skipWs r with
      | ',' :: r2 =>
        match parseItems fuel (skipWs r2) with
        | some (vs, r3) => some (v :: vs, r3)
        | none => none
      | ']' :: r2 => some ([v], r2)
      | _ => none

/-- Parse the members of a non-empty object as the raw pair sequence:
`"key" : value`, then `,` and more members or the closing brace. -/
def parseFields : Nat → List Char → Option (List (String × Json) × List Char)
  | 0, _ => none
  | fuel + 1, s =>
    match s with
    | '"' :: rest =>
      match parseStringBody rest with
      | none => none
      | some (k, r1) =>
        match skipWs r1 with
        | ':' :: r2 =>
          match parseValue fuel (skipWs r2) with
          | none => none
          | some (v, r3) =>
            match skipWs r3 with
            | ',' :: r4 =>
              match parseFields fuel (skipWs r4) with
              | some (ps, r5) => some ((⟨k⟩, v) :: ps, r5)
              | none => none
            | c5 :: r4 =>
              if c5 = cbraceC then some ([(⟨k⟩, v)], r4) else none
            | [] => none
        | _ => none
    | _ => none

end

/-- `json.loads`: skip whitespace, parse one value, and reject trailing data.
The fuel `s.length + 1` never runs out on a parseable input, because every
recursive step consumes at least one input character first. -/
def loads (s : String) : Option Json :=
  match parseValue (s.data.length + 1) (skipWs s.data) with
  | some (v, r) => match skipWs r with
    | [] => some v
    | _ => none
  | none => none

/-! ## Notions used by the round-trip proof -/

/-- A context is number-safe when its first character cannot extend a decimal
integer that was parsed just before it (no digit, no `.`/`e`/`E`).  Every
character that can follow a value in `json.dump` output — `,`, a newline, `]`,
the closing brace, or nothing — is number-safe. -/
def numOk : List Char → Bool
  | [] => true
  | c :: _ => !c.isDigit && !(c == '.') && !(c == 'e') && !(c == 'E')

mutual

/-- Well-formedness of a value as `json.load` produces it: every object's keys
are pairwise distinct (CPython dicts cannot hold a key twice). -/
def Jwf : Json → Prop
  | .null => True
  | .bool _ => True
  | .num _ => True
  | .str _ => True
  | .arr items => JwfL items
  | .obj fields => (fields.map Prod.fst).Nodup ∧ JwfF fields

/-- All elements well-formed. -/
def JwfL : List Json → Prop
  | [] => True
  | x :: xs => Jwf x ∧ JwfL xs

/-- All field values well-formed. -/
def JwfF : List (String × Json) → Prop
  | [] => True
  | (_, v) :: fs => Jwf v ∧ JwfF fs

end

mutual

/-- Fuel needed by `parseValue` on the rendering of a value. -/
def jsize : Json → Nat
  | .null => 1
  | .bool _ => 1
  | .num _ => 1
  | .str _ => 1
  | .arr items => 1 + jsizeL items
  | .obj fields => 1 + jsizeF fields

/-- Fuel needed by `parseItems` on rendered elements. -/
def jsizeL : List Json → Nat
  | [] => 0
  | x :: xs => 1 + jsize x + jsizeL xs

/-- Fuel needed by `parseFields` on rendered members. -/
def jsizeF : List (String × Json) → Nat
  | [] => 0
  | (_, v) :: fs => 1 + jsize v + jsizeF fs

end

/-! ## The validation pipeline of `validate-members.py`

A feed record is a Python dict: an ordered association list of string keys and
JSON values.  The Launchpad service is the script's one external collaborator;
it is embedded as the data the script consumes from it: the participant list
of `~ubuntumembers` (which, per the Launchpad API and the code comment at line
62, already includes indirect members inherited via sub-teams) and the result
of `launchpad.people[nick]` per nick.  Lookups are deterministic within a run:
the same nick always yields the same result. -/

/-- One `feeds.json` record, a Python dict as `json.load` built it. -/
abbrev Record := List (String × Json)

/-- Python `str.lower` (the ASCII range; Launchpad identifiers are ASCII). -/
def pyLower (s : String) : String := ⟨s.data.map Char.toLower⟩

/-- The `ALLOWED_NICKS` constant (line 29): nicks allowed even if not direct
Ubuntu Members. -/
def ALLOWED_NICKS : List String := ["uwn"]

/-- The comparison set `\x7ba.lower() for a in ALLOWED_NICKS\x7d` of line 52. -/
def allowedLower : List String := ALLOWED_NICKS.map pyLower

/-- Python `feed[k]` as an optional lookup: the first (and, for dicts, only)
binding of the key. -/
def rget (r : Record) (k : String) : Option Json :=
  match r with
  | [] => none
  | (k', v) :: rest => if k' = k then some v else rget rest k

/-- The script's `feed.get("nick", "")`.  A present non-string value would
make the Python crash on `.lower()` later; the embedding treats it like the
default (no claim involves a non-string nick). -/
def getNick (f : Record) : String :=
  match rget f "nick" with
  | some (.str s) => s
  | _ => ""

/-- `get_unique_nicks` (lines 47-54): the set of non-empty record nicks whose
lowercase form is not allow-listed.  The Python set is embedded as a
duplicate-free list; iteration order is irrelevant downstream (the script
sorts before iterating, and all results are sets). -/
def get_unique_nicks (feeds : List Record) : List String :=
  ((feeds.map getNick).filter
    (fun n => n != "" && !(allowedLower.contains (pyLower n)))).dedup

/-- What `launchpad.people[nick]` does for one nick: returns a person, raises
`KeyError`, or raises some other exception. -/
inductive LookupResult where
  | found
  | keyError
  | apiError
deriving DecidableEq

/-- The remote directory: the transitive participant list of `~ubuntumembers`
and the per-nick behavior of `launchpad.people[...]`. -/
structure Launchpad where
  participants : List String
  people : String → LookupResult

/-- `get_ubuntu_members` (lines 57-74): the set of `person.name` over all
participants (direct and indirect members). -/
def get_ubuntu_members (lp : Launchpad) : List String :=
  lp.participants.dedup

/-- `check_user_exists` (lines 77-87): `some true` if the user exists,
`some false` on `KeyError`, `none` on any other exception. -/
def check_user_exists (people : String → LookupResult) (nick : String) : Option Bool :=
  match people nick with
  | .found => some true
  | .keyError => some false
  | .apiError => none

/-- The four classification outcomes of `check_single_nick` (line 94). -/
inductive Outcome where
  | member
  | not_member
  | not_found
  | error
deriving DecidableEq

/-- `check_single_nick` (lines 90-131), without the console output: lowercase
the nick, short-circuit on membership, otherwise classify by the lookup. -/
def check_single_nick (members : List String) (people : String → LookupResult)
    (nick : String) : Outcome :=
  let lp_nick := pyLower nick
  if members.contains lp_nick then .member
  else
    match check_user_exists people lp_nick with
    | none => .error
    | some false => .not_found
    | some true => .not_member

/-- The three nick sets the classification loop of `validate_memberships`
builds (lines 152-177), plus the instrumentation `lookup_calls`: the arguments
of every `check_user_exists` call the loop performs, one per processed nick
that is not in the membership set. -/
structure NickClassification where
  non_member_nicks : List String
  not_found_nicks : List String
  error_nicks : List String
  lookup_calls : List String

/-- The per-nick classification loop of `validate_memberships`
(lines 156-177). -/
def classifyNicks (members : List String) (people : String → LookupResult) :
    List String → NickClassification
  | [] => ⟨[], [], [], []⟩
  | nick :: rest =>
    let c := classifyNicks members people rest
    let lp_nick := pyLower nick
    if members.contains lp_nick then c
    else
      match check_user_exists people lp_nick with
      | none => ⟨c.non_member_nicks, c.not_found_nicks, nick :: c.error_nicks,
                 lp_nick :: c.lookup_calls⟩
      | some true => ⟨nick :: c.non_member_nicks, c.not_found_nicks, c.error_nicks,
                      lp_nick :: c.lookup_calls⟩
      | some false => ⟨c.non_member_nicks, nick :: c.not_found_nicks, c.error_nicks,
                       lp_nick :: c.lookup_calls⟩

/-- What `validate_memberships` returns (plus the error set and the lookup
instrumentation, which the Python keeps in locals/console only). -/
structure ValidateResult where
  valid_feeds : List Record
  removed_entries : List Record
  not_found_nicks : List String
  non_member_nicks : List String
  error_nicks : List String
  lookup_calls : List String

/-- `validate_memberships` (lines 134-200), with the membership set and the
lookup behavior as parameters (`ubuntu_members = get_ubuntu_members(...)` is
computed once by the caller side of the embedding): classify the unique nicks,
then partition the records, tagging each removed record with its reason via
dict assignment. -/
def validate_memberships (feeds : List Record) (members : List String)
    (people : String → LookupResult) : ValidateResult :=
  let nicks := get_unique_nicks feeds
  let c := classifyNicks members people nicks
  let invalid := c.non_member_nicks ++ c.not_found_nicks
  ⟨feeds.filter (fun f => !(invalid.contains (getNick f))),
   (feeds.filter (fun f => invalid.contains (getNick f))).map
     (fun f => insertKey f "reason"
       (.str (if c.not_found_nicks.contains (getNick f) then "not_found" else "not_member"))),
   c.not_found_nicks, c.non_member_nicks, c.error_nicks, c.lookup_calls⟩

/-- The list-of-records value `save_feeds` serializes. -/
def feedsToJson (feeds : List Record) : Json := .arr (feeds.map .obj)

/-- `save_feeds` (lines 40-44): `json.dump(feeds, f, indent=2,
ensure_ascii=False)` followed by `f.write("\n")`. -/
def save_feeds (feeds : List Record) : String :=
  ⟨renderJson 0 (feedsToJson feeds) ++ ['\n']⟩

/-- `load_feeds` (lines 34-37): `json.load` of the file content; the script
then treats the result as a list of dicts (anything else cannot get through
the pipeline). -/
def load_feeds (content : String) : Option (List Record) :=
  match loads content with
  | some (.arr items) => items.mapM (fun j => match j with | .obj fs => some fs | _ => none)
  | _ => none

/-- Observable outcome of one normal-mode or dry-run invocation of `main`
(lines 283-327): the partition, the `feeds.json` content after the run, and
the `has_changes` value passed to `set_github_output` (the script always
emits exactly one such signal on these paths). -/
structure RunResult where
  valid_feeds : List Record
  removed_entries : List Record
  file_content : String
  has_changes : String

/-- The validation path of `main` (lines 283-327): load the file, validate,
then: no removable records → signal `has_changes=false`, file untouched;
dry-run → signal `has_changes=false`, file untouched (lines 311-314);
otherwise overwrite the data file with the surviving records and signal
`has_changes=true`. -/
def runValidate (dryRun : Bool) (fileContent : String) (lp : Launchpad) :
    Option RunResult :=
  match load_feeds fileContent with
  | none => none
  | some feeds =>
    let r := validate_memberships feeds (get_ubuntu_members lp) lp.people
    if r.removed_entries.isEmpty then
      some ⟨r.valid_feeds, r.removed_entries, fileContent, "false"⟩
    else if dryRun then
      some ⟨r.valid_feeds, r.removed_entries, fileContent, "false"⟩
    else
      some ⟨r.valid_feeds, r.removed_entries, save_feeds r.valid_feeds, "true"⟩

/-- The state of the data file while `save_feeds` runs, as CPython executes
it: `open(FEEDS_FILE, "w")` truncates the file to zero bytes at once;
`json.dump` and the trailing `f.write("\n")` then emit the serialized text
sequentially.  If an exception interrupts the write after `bytesWritten`
bytes, the file is left holding exactly that prefix. -/
def save_feeds_interrupted (feeds : List Record) (bytesWritten : Nat) : String :=
  ⟨(renderJson 0 (feedsToJson feeds) ++ ['\n']).take bytesWritten⟩

/-! ## The spec's view of the partition (for stating claim C2)

The spec describes the partition per record: a record is removable iff its
identifier is classified (non-empty nick, not allow-listed) with outcome
`not_member` or `not_found`, and a removed record's `reason` is that outcome.
The theorems below prove `validate_memberships` equal to this description. -/

/-- Whether a record's nick gets classified at all. -/
def classifiedB (f : Record) : Bool :=
  (getNick f != "") && !(allowedLower.contains (pyLower (getNick f)))

/-- The spec's removability rule for one record. -/
def specRemovable (members : List String) (people : String → LookupResult)
    (f : Record) : Bool :=
  classifiedB f &&
    (match check_single_nick members people (getNick f) with
     | .not_member => true
     | .not_found => true
     | _ => false)

/-- The spec's reason tag for a removed record: its identifier's outcome. -/
def specReason (members : List String) (people : String → LookupResult)
    (f : Record) : String :=
  if check_single_nick members people (getNick f) = .not_found then "not_found"
  else "not_member"

/-! ## Concrete data for the scenario theorems and witnesses -/

/-- A record whose nick is in the membership set. -/
def aliceRec : Record :=
  [("name", .str "Alice Example"), ("nick", .str "alice"), ("url", .str "https://a.example/feed")]

/-- A record whose nick exists on Launchpad but is not a member. -/
def bobRec : Record :=
  [("name", .str "Bob Example"), ("nick", .str "bob"), ("url", .str "https://b.example/feed")]

/-- A record whose nick raises `KeyError` on lookup. -/
def carolRec : Record :=
  [("name", .str "Carol Example"), ("nick", .str "carol"), ("url", .str "https://c.example/feed")]

/-- The three-record data file of the spec's scenario. -/
def scenarioFeeds : List Record := [aliceRec, bobRec, carolRec]

/-- Membership set: only alice. -/
def scenarioLp : Launchpad :=
  ⟨["alice"], fun n => if n = "bob" then .found else if n = "carol" then .keyError else .apiError⟩

/-- The scenario data file as `save_feeds` would have written it. -/
def scenarioFile : String := save_feeds scenarioFeeds

/-- A record with the same nick as `bobRec` up to case. -/
def bobUpperRec : Record := [("name", .str "Bob Upper"), ("nick", .str "Bob")]

/-- Two records whose nicks differ only in case. -/
def caseFeeds : List Record := [bobUpperRec, bobRec]

/-- A lookup under which every nick exists. -/
def alwaysFound : String → LookupResult := fun _ => .found

/-- An allow-listed record, in non-canonical case. -/
def uwnRec : Record := [("name", .str "Ubuntu Weekly News"), ("nick", .str "UWN")]

/-- A record with no nick field at all. -/
def noNickRec : Record := [("name", .str "Anonymous"), ("url", .str "https://x.example/feed")]

/-- A Launchpad whose participant list has a duplicate (sets collapse it). -/
def demoLp : Launchpad := ⟨["alice", "bob", "alice"], alwaysFound⟩

/-- What the scenario dry run produces. -/
def scenarioDryRunResult : RunResult :=
  ⟨[aliceRec],
   [bobRec ++ [("reason", .str "not_member")], carolRec ++ [("reason", .str "not_found")]],
   scenarioFile, "false"⟩

/-- A concrete `feeds.json` content for the round-trip witness: one record
with an unknown extra field and hand-written (non-canonical) whitespace. -/
def wFile : String :=
  "[ \x7b \"url\": \"u\", \"nick\": \"Bob\", \"extra\": [ 1, true, null ] \x7d ]"

/-- The record list `json.load` produces from `wFile`. -/
def wRecs : List Record :=
  [[("url", Json.str "u"), ("nick", Json.str "Bob"),
    ("extra", Json.arr [Json.num 1, Json.bool true, Json.null])]]

/-! ## Lemmas about the classification loop -/

theorem mem_get_unique_nicks {feeds : List Record} {n : String} :
    n ∈ get_unique_nicks feeds ↔
      n ∈ feeds.map getNick ∧ n ≠ "" ∧ pyLower n ∉ allowedLower := by
  simp [get_unique_nicks, List.mem_dedup, List.mem_filter, and_assoc]

theorem check_single_nick_eq (members : List String) (people : String → LookupResult)
    (nick : String) :
    check_single_nick members people nick =
      if pyLower nick ∈ members then .member
      else
        match people (pyLower nick) with
        | .apiError => .error
        | .found => .not_member
        | .keyError => .not_found := by
  by_cases hm : pyLower nick ∈ members
  · simp [check_single_nick, hm]
  · cases hp : people (pyLower nick) <;>
      simp [check_single_nick, check_user_exists, hm, hp]

theorem classifyNicks_spec (members : List String) (people : String → LookupResult) :
    ∀ ns : List String,
      ((classifyNicks members people ns).non_member_nicks
          = ns.filter (fun n => check_single_nick members people n == .not_member))
      ∧ ((classifyNicks members people ns).not_found_nicks
          = ns.filter (fun n => check_single_nick members people n == .not_found))
      ∧ ((classifyNicks members people ns).error_nicks
          = ns.filter (fun n => check_single_nick members people n == .error))
      ∧ ((classifyNicks members people ns).lookup_calls
          = (ns.filter (fun n => !(members.contains (pyLower n)))).map pyLower) := by
  intro ns
  induction ns with
  | nil => simp [classifyNicks]
  | cons nick rest ih =>
    obtain ⟨ih1, ih2, ih3, ih4⟩ := ih
    have hout := check_single_nick_eq members people nick
    by_cases hm : pyLower nick ∈ members
    · rw [if_pos hm] at hout
      simp [classifyNicks, hm, ih1, ih2, ih3, ih4, hout, List.filter_cons]
    · rw [if_neg hm] at hout
      cases hp : people (pyLower nick) <;>
        rw [hp] at hout <;>
        simp [classifyNicks, check_user_exists, hm, hp, ih1, ih2, ih3, ih4, hout,
              List.filter_cons]

theorem check_single_nick_congr {members : List String} {people : String → LookupResult}
    {a b : String} (h : pyLower a = pyLower b) :
    check_single_nick members people a = check_single_nick members people b := by
  unfold check_single_nick
  rw [h]

theorem pyLower_eq_empty {n : String} (h : pyLower n = "") : n = "" := by
  have hd : n.data.map Char.toLower = [] := congrArg String.data h
  have : n.data = [] := by
    cases hn : n.data with
    | nil => rfl
    | cons c cs => rw [hn] at hd; cases hd
  cases n
  simp_all

theorem getNick_mem_unique {feeds : List Record} {f : Record} (hf : f ∈ feeds) :
    (getNick f ∈ get_unique_nicks feeds) ↔ classifiedB f = true := by
  rw [mem_get_unique_nicks]
  simp only [classifiedB, Bool.and_eq_true, bne_iff_ne, ne_eq, Bool.not_eq_true',
    Bool.not_eq_true]
  constructor
  · rintro ⟨-, h1, h2⟩
    refine ⟨h1, ?_⟩
    simpa using h2
  · rintro ⟨h1, h2⟩
    refine ⟨List.mem_map_of_mem getNick hf, h1, ?_⟩
    simpa using h2

theorem invalid_contains_eq {feeds : List Record} {members : List String}
    {people : String → LookupResult} {f : Record} (hf : f ∈ feeds) :
    ((classifyNicks members people (get_unique_nicks feeds)).non_member_nicks ++
      (classifyNicks members people (get_unique_nicks feeds)).not_found_nicks).contains
        (getNick f)
      = specRemovable members people f := by
  obtain ⟨h1, h2, -, -⟩ := classifyNicks_spec members people (get_unique_nicks feeds)
  rw [Bool.eq_iff_iff]
  rw [List.contains_eq_any_beq]
  simp only [List.any_eq_true, List.mem_append, beq_iff_eq]
  constructor
  · rintro ⟨n, hn | hn, rfl⟩
    · rw [h1] at hn
      obtain ⟨hu, ho⟩ := List.mem_filter.mp hn
      have hc := (getNick_mem_unique hf).mp hu
      simp only [specRemovable, hc, Bool.true_and]
      rw [beq_iff_eq] at ho
      rw [ho]
    · rw [h2] at hn
      obtain ⟨hu, ho⟩ := List.mem_filter.mp hn
      have hc := (getNick_mem_unique hf).mp hu
      simp only [specRemovable, hc, Bool.true_and]
      rw [beq_iff_eq] at ho
      rw [ho]
  · intro hr
    simp only [specRemovable, Bool.and_eq_true] at hr
    obtain ⟨hc, ho⟩ := hr
    have hu : getNick f ∈ get_unique_nicks feeds := (getNick_mem_unique hf).mpr hc
    cases hout : check_single_nick members people (getNick f) with
    | not_member =>
      exact ⟨getNick f, Or.inl (h1 ▸ List.mem_filter.mpr ⟨hu, by rw [hout]; rfl⟩), rfl⟩
    | not_found =>
      exact ⟨getNick f, Or.inr (h2 ▸ List.mem_filter.mpr ⟨hu, by rw [hout]; rfl⟩), rfl⟩
    | member => rw [hout] at ho; cases ho
    | error => rw [hout] at ho; cases ho

theorem validate_valid_eq (feeds : List Record) (members : List String)
    (people : String → LookupResult) :
    (validate_memberships feeds members people).valid_feeds
      = feeds.filter (fun f => !(specRemovable members people f)) := by
  unfold validate_memberships
  exact List.filter_congr (fun f hf => by rw [invalid_contains_eq hf])

theorem reason_contains_eq {feeds : List Record} {members : List String}
    {people : String → LookupResult} {f : Record} (hf : f ∈ feeds)
    (hrem : specRemovable members people f = true) :
    (if (classifyNicks members people (get_unique_nicks feeds)).not_found_nicks.contains
          (getNick f)
     then ("not_found" : String) else "not_member")
      = specReason members people f := by
  obtain ⟨-, h2, -, -⟩ := classifyNicks_spec members people (get_unique_nicks feeds)
  simp only [specRemovable, Bool.and_eq_true] at hrem
  obtain ⟨hc, ho⟩ := hrem
  have hu : getNick f ∈ get_unique_nicks feeds := (getNick_mem_unique hf).mpr hc
  unfold specReason
  cases hout : check_single_nick members people (getNick f) with
  | not_found =>
    have : (classifyNicks members people (get_unique_nicks feeds)).not_found_nicks.contains
        (getNick f) = true := by
      rw [h2, List.contains_eq_any_beq]
      simp only [List.any_eq_true, beq_iff_eq]
      exact ⟨getNick f, List.mem_filter.mpr ⟨hu, by rw [hout]; rfl⟩, rfl⟩
    rw [this]
    simp
  | not_member =>
    have : (classifyNicks members people (get_unique_nicks feeds)).not_found_nicks.contains
        (getNick f) = false := by
      rw [h2, List.contains_eq_any_beq]
      simp only [List.any_eq_true, beq_iff_eq, Bool.eq_false_iff, ne_eq, not_exists, not_and]
      rintro n hn rfl
      obtain ⟨-, hn2⟩ := List.mem_filter.mp hn
      rw [hout] at hn2
      cases hn2
    rw [this]
    simp
  | member => rw [hout] at ho; cases ho
  | error => rw [hout] at ho; cases ho

theorem validate_removed_eq (feeds : List Record) (members : List String)
    (people : String → LookupResult) :
    (validate_memberships feeds members people).removed_entries
      = (feeds.filter (specRemovable members people)).map
          (fun f => insertKey f "reason" (.str (specReason members people f))) := by
  have hfe : feeds.filter
        (fun f => ((classifyNicks members people (get_unique_nicks feeds)).non_member_nicks ++
          (classifyNicks members people (get_unique_nicks feeds)).not_found_nicks).contains
            (getNick f))
      = feeds.filter (specRemovable members people) :=
    List.filter_congr (fun f hf => invalid_contains_eq hf)
  simp only [validate_memberships]
  rw [hfe]
  exact List.map_congr_left (fun f hf => by
    obtain ⟨hffeeds, hrem⟩ := List.mem_filter.mp hf
    rw [reason_contains_eq hffeeds hrem])

theorem validate_lookup_calls_eq (feeds : List Record) (members : List String)
    (people : String → LookupResult) :
    (validate_memberships feeds members people).lookup_calls
      = ((get_unique_nicks feeds).filter
          (fun n => !(members.contains (pyLower n)))).map pyLower := by
  obtain ⟨-, -, -, h4⟩ := classifyNicks_spec members people (get_unique_nicks feeds)
  exact h4

theorem rget_insertKey_ne (r : Record) (k k' : String) (v : Json) (h : k' ≠ k) :
    rget (insertKey r k' v) k = rget r k := by
  induction r with
  | nil => simp [insertKey, rget, h]
  | cons p rest ih =>
    obtain ⟨a, b⟩ := p
    by_cases hak : a = k'
    · subst hak
      simp only [insertKey, if_pos rfl]
      simp [rget, h]
    · simp only [insertKey, if_neg hak]
      by_cases hk : a = k
      · simp [rget, hk]
      · simp [rget, hk, ih]

theorem getNick_insertReason (f : Record) (v : Json) :
    getNick (insertKey f "reason" v) = getNick f := by
  unfold getNick
  rw [rget_insertKey_ne f "nick" "reason" v (by decide)]

theorem specRemovable_iff {members : List String} {people : String → LookupResult}
    {g : Record} :
    specRemovable members people g = true ↔
      classifiedB g = true ∧
        (check_single_nick members people (getNick g) = .not_member ∨
         check_single_nick members people (getNick g) = .not_found) := by
  cases hout : check_single_nick members people (getNick g) <;>
    simp [specRemovable, hout]

theorem mem_valid_of_not_removable {feeds : List Record} {members : List String}
    {people : String → LookupResult} {f : Record} (hf : f ∈ feeds)
    (h : specRemovable members people f = false) :
    f ∈ (validate_memberships feeds members people).valid_feeds := by
  rw [validate_valid_eq]
  exact List.mem_filter.mpr ⟨hf, by rw [h]; rfl⟩

theorem removed_origin {feeds : List Record} {members : List String}
    {people : String → LookupResult} {e : Record}
    (he : e ∈ (validate_memberships feeds members people).removed_entries) :
    ∃ g ∈ feeds, specRemovable members people g = true ∧ getNick e = getNick g := by
  rw [validate_removed_eq] at he
  obtain ⟨g, hg, rfl⟩ := List.mem_map.mp he
  obtain ⟨hgf, hgr⟩ := List.mem_filter.mp hg
  exact ⟨g, hgf, hgr, getNick_insertReason g _⟩

/-! ## Round-trip: whitespace and number lemmas -/

theorem skipWs_cons_not_ws {c : Char} (r : List Char) (h : isWsB c = false) :
    skipWs (c :: r) = c :: r := by
  simp [skipWs, h]

theorem skipWs_ws_front : ∀ {l : List Char} (r : List Char),
    (∀ c ∈ l, isWsB c = true) → skipWs (l ++ r) = skipWs r
  | [], _, _ => rfl
  | c :: l, r, h => by
    have hc : isWsB c = true := h c (List.mem_cons_self c l)
    simp only [List.cons_append, skipWs, hc, if_pos]
    exact skipWs_ws_front r (fun d hd => h d (List.mem_cons_of_mem c hd))

theorem indentChars_ws (lvl : Nat) : ∀ c ∈ indentChars lvl, isWsB c = true := by
  intro c hc
  simp only [indentChars, List.mem_cons] at hc
  rcases hc with rfl | hc
  · decide
  · rw [List.eq_of_mem_replicate hc]; decide

theorem skipWs_indent (lvl : Nat) (r : List Char) :
    skipWs (indentChars lvl ++ r) = skipWs r :=
  skipWs_ws_front r (indentChars_ws lvl)

theorem digitChar_isDigit {d : Nat} (h : d < 10) : (digitChar d).isDigit = true := by
  interval_cases d <;> decide

theorem digitValN_digitChar {d : Nat} (h : d < 10) : digitValN (digitChar d) = d := by
  interval_cases d <;> decide

theorem digit_toNat_lower {c : Char} (h : c.isDigit = true) : 48 ≤ c.toNat := by
  simp only [Char.isDigit, decide_eq_true_eq, Bool.and_eq_true] at h
  exact h.1

theorem ne_of_toNat_lt {c d : Char} (hc : 48 ≤ c.toNat) (hd : d.toNat < 48) :
    (c = d) = False := by
  simp only [eq_iff_iff, iff_false]
  intro h
  rw [h] at hc
  omega

theorem isDigit_not_ws {c : Char} (h : c.isDigit = true) : isWsB c = false := by
  have hb := digit_toNat_lower h
  simp only [isWsB, ne_of_toNat_lt hb (show (' ' : Char).toNat < 48 by decide),
    ne_of_toNat_lt hb (show ('\t' : Char).toNat < 48 by decide),
    ne_of_toNat_lt hb (show ('\n' : Char).toNat < 48 by decide),
    ne_of_toNat_lt hb (show ('\r' : Char).toNat < 48 by decide)]
  simp

theorem natToCharsF_ne_nil : ∀ {fuel n : Nat}, n < fuel → natToCharsF fuel n ≠ []
  | fuel + 1, n, _ => by
    simp only [natToCharsF]
    split
    · simp
    · simp

theorem natToCharsF_digits : ∀ {fuel n : Nat}, n < fuel →
    ∀ c ∈ natToCharsF fuel n, c.isDigit = true
  | fuel + 1, n, h => by
    simp only [natToCharsF]
    split
    · rename_i h10
      intro c hc
      simp only [List.mem_singleton] at hc
      subst hc
      exact digitChar_isDigit h10
    · rename_i h10
      intro c hc
      rcases List.mem_append.mp hc with hc | hc
      · exact natToCharsF_digits (by omega) c hc
      · simp only [List.mem_singleton] at hc
        subst hc
        exact digitChar_isDigit (Nat.mod_lt _ (by omega))

theorem natFromDigits_append_digit (ds : List Char) (d : Char) :
    natFromDigits (ds ++ [d]) = 10 * natFromDigits ds + digitValN d := by
  unfold natFromDigits
  rw [List.foldl_append]
  simp [Nat.mul_comm]

theorem natFromDigits_natToCharsF : ∀ {fuel n : Nat}, n < fuel →
    natFromDigits (natToCharsF fuel n) = n
  | fuel + 1, n, h => by
    simp only [natToCharsF]
    split
    · rename_i h10
      show natFromDigits [digitChar n] = n
      unfold natFromDigits
      simp [digitValN_digitChar h10]
    · rename_i h10
      rw [natFromDigits_append_digit, natFromDigits_natToCharsF (show n / 10 < fuel by omega),
        digitValN_digitChar (Nat.mod_lt _ (by omega))]
      omega

theorem natToCharsF_no_leading_zero : ∀ {fuel n : Nat}, n < fuel → 1 ≤ n →
    ∀ {ds : List Char}, natToCharsF fuel n = '0' :: ds → False
  | fuel + 1, n, h, h1, ds => by
    simp only [natToCharsF]
    split
    · rename_i h10
      intro heq
      have : digitChar n = '0' := (List.cons.injEq _ _ _ _ ▸ heq).1
      interval_cases n <;> simp_all <;> cases this
    · rename_i h10
      intro heq
      cases hfront : natToCharsF fuel (n / 10) with
      | nil => exact natToCharsF_ne_nil (show n / 10 < fuel by omega) hfront
      | cons c cs =>
        rw [hfront] at heq
        simp only [List.cons_append, List.cons.injEq] at heq
        exact natToCharsF_no_leading_zero (show n / 10 < fuel by omega) (by omega)
          (heq.1 ▸ hfront)

theorem natToChars_ne_nil (n : Nat) : natToChars n ≠ [] :=
  natToCharsF_ne_nil (Nat.lt_succ_self n)

theorem natToChars_digits (n : Nat) : ∀ c ∈ natToChars n, c.isDigit = true :=
  natToCharsF_digits (Nat.lt_succ_self n)

theorem natFromDigits_natToChars (n : Nat) : natFromDigits (natToChars n) = n :=
  natFromDigits_natToCharsF (Nat.lt_succ_self n)

theorem takeDigits_append : ∀ {ds : List Char} {r : List Char},
    (∀ c ∈ ds, c.isDigit = true) → (∀ c, r.head? = some c → c.isDigit = false) →
    takeDigits (ds ++ r) = (ds, r)
  | [], [], _, _ => rfl
  | [], c :: cs, _, hr => by
    simp only [List.nil_append, takeDigits, hr c rfl]
    simp
  | d :: ds, r, hds, hr => by
    have hd : d.isDigit = true := hds d (List.mem_cons_self d ds)
    have ih := takeDigits_append (fun c hc => hds c (List.mem_cons_of_mem d hc)) hr
    simp only [List.cons_append, takeDigits, hd, if_pos, List.append_eq, ih]

theorem numOk_head_not_digit {r : List Char} (hr : numOk r = true) :
    ∀ c, r.head? = some c → c.isDigit = false := by
  intro c hc
  cases r with
  | nil => cases hc
  | cons a as =>
    simp only [List.head?_cons, Option.some.injEq] at hc
    subst hc
    simp only [numOk, Bool.and_eq_true, Bool.not_eq_true'] at hr
    exact hr.1.1.1

theorem natToChars_no_bad_zero {n : Nat} {d : Char} {ds : List Char}
    (h : natToChars n = d :: ds) : (decide (d = '0') && !ds.isEmpty) = false := by
  by_cases hn : n = 0
  · subst hn
    have h0 : natToChars 0 = ['0'] := by decide
    rw [h0] at h
    obtain ⟨-, h2⟩ := (List.cons.injEq _ _ _ _).mp h.symm
    rw [h2]
    simp
  · by_cases hd : d = '0'
    · exact absurd (hd ▸ h) (fun hh =>
        natToCharsF_no_leading_zero (Nat.lt_succ_self n) (by omega) hh)
    · simp [hd]

theorem parseUnsigned_natToChars (n : Nat) {rest : List Char} (hr : numOk rest = true) :
    parseUnsigned (natToChars n ++ rest) = some (n, rest) := by
  have ht : takeDigits (natToChars n ++ rest) = (natToChars n, rest) :=
    takeDigits_append (natToChars_digits n) (numOk_head_not_digit hr)
  cases hnc : natToChars n with
  | nil => exact absurd hnc (natToChars_ne_nil n)
  | cons d ds =>
    rw [hnc] at ht
    simp only [parseUnsigned, ht]
    rw [natToChars_no_bad_zero hnc, if_neg Bool.false_ne_true]
    cases rest with
    | nil => rw [← hnc, natFromDigits_natToChars]
    | cons c cs =>
      simp only [numOk, Bool.and_eq_true, Bool.not_eq_true', beq_eq_false_iff_ne] at hr
      obtain ⟨⟨⟨-, h1⟩, h2⟩, h3⟩ := hr
      have hcond : (decide (c = '.') || decide (c = 'e') || decide (c = 'E')) = false := by
        simp [h1, h2, h3]
      dsimp only
      rw [hcond, if_neg Bool.false_ne_true, ← hnc, natFromDigits_natToChars]

theorem parseNumber_intToChars (i : Int) {rest : List Char} (hr : numOk rest = true) :
    parseNumber (intToChars i ++ rest) = some (i, rest) := by
  unfold intToChars
  by_cases hi : i < 0
  · rw [if_pos hi]
    simp only [List.cons_append, parseNumber, if_pos]
    rw [parseUnsigned_natToChars _ hr]
    simp only [Option.map_some']
    have : -(i.natAbs : Int) = i := by omega
    rw [this]
  · rw [if_neg hi]
    cases hnc : natToChars i.toNat with
    | nil => exact absurd hnc (natToChars_ne_nil _)
    | cons d ds =>
      have hd : d.isDigit = true := natToChars_digits _ d (hnc ▸ List.mem_cons_self d ds)
      have hdm : ¬(d = '-') := by
        intro h
        rw [h] at hd
        cases hd
      rw [List.cons_append]
      simp only [parseNumber]
      rw [if_neg hdm, ← List.cons_append, ← hnc, parseUnsigned_natToChars _ hr]
      simp only [Option.map_some']
      have : ((i.toNat : Nat) : Int) = i := by omega
      rw [this]

/-! ## Round-trip: string-literal lemmas -/

theorem hexVal?_hexDigitChar {d : Nat} (h : d < 16) :
    hexVal? (hexDigitChar d) = some d := by
  interval_cases d <;> decide

theorem parseStringBody_u_escape (h3 h4 : Char) (v3 v4 : Nat) (X l rest : List Char)
    (hx3 : hexVal? h3 = some v3) (hx4 : hexVal? h4 = some v4)
    (ih : parseStringBody X = some (l, rest))
    (hv : ((0 * 16 + 0) * 16 + v3) * 16 + v4 < 32) :
    parseStringBody ('\\' :: 'u' :: '0' :: '0' :: h3 :: h4 :: X)
      = some (Char.ofNat (((0 * 16 + 0) * 16 + v3) * 16 + v4) :: l, rest) := by
  have hval : ((0 * 16 + 0) * 16 + v3) * 16 + v4 < 55296 ∨
      57344 ≤ ((0 * 16 + 0) * 16 + v3) * 16 + v4 := Or.inl (by omega)
  have h0 : hexVal? '0' = some 0 := by decide
  rw [parseStringBody.eq_def]
  simp [h0, hx3, hx4, ih, hval]
  omega

theorem parseStringBody_encode : ∀ (l : List Char) (rest : List Char),
    parseStringBody ((l.map escapeChar).flatten ++ '"' :: rest) = some (l, rest)
  | [], rest => by
    rw [List.map_nil, List.flatten_nil, List.nil_append, parseStringBody.eq_def]
    rfl
  | c :: l, rest => by
    have ih := parseStringBody_encode l rest
    rw [List.map_cons, List.flatten_cons, List.append_assoc]
    set X := (l.map escapeChar).flatten ++ '"' :: rest with hX
    by_cases h1 : c = '"'
    · subst h1
      show parseStringBody (['\\', '"'] ++ X) = some ('"' :: l, rest)
      rw [parseStringBody.eq_def]
      dsimp only [List.cons_append, List.nil_append]
      rw [ih]
      rfl
    by_cases h2 : c = '\\'
    · subst h2
      show parseStringBody (['\\', '\\'] ++ X) = some ('\\' :: l, rest)
      rw [parseStringBody.eq_def]
      dsimp only [List.cons_append, List.nil_append]
      rw [ih]
      rfl
    by_cases h3 : c = '\n'
    · subst h3
      show parseStringBody (['\\', 'n'] ++ X) = some ('\n' :: l, rest)
      rw [parseStringBody.eq_def]
      dsimp only [List.cons_append, List.nil_append]
      rw [ih]
      rfl
    by_cases h4 : c = '\t'
    · subst h4
      show parseStringBody (['\\', 't'] ++ X) = some ('\t' :: l, rest)
      rw [parseStringBody.eq_def]
      dsimp only [List.cons_append, List.nil_append]
      rw [ih]
      rfl
    by_cases h5 : c = '\r'
    · subst h5
      show parseStringBody (['\\', 'r'] ++ X) = some ('\r' :: l, rest)
      rw [parseStringBody.eq_def]
      dsimp only [List.cons_append, List.nil_append]
      rw [ih]
      rfl
    by_cases h6 : c = Char.ofNat 8
    · subst h6
      show parseStringBody (['\\', 'b'] ++ X) = some (Char.ofNat 8 :: l, rest)
      rw [parseStringBody.eq_def]
      dsimp only [List.cons_append, List.nil_append]
      rw [ih]
      rfl
    by_cases h7 : c = Char.ofNat 12
    · subst h7
      show parseStringBody (['\\', 'f'] ++ X) = some (Char.ofNat 12 :: l, rest)
      rw [parseStringBody.eq_def]
      dsimp only [List.cons_append, List.nil_append]
      rw [ih]
      rfl
    by_cases h8 : c.toNat < 32
    · have hesc : escapeChar c
          = ['\\', 'u', '0', '0', hexDigitChar (c.toNat / 16), hexDigitChar (c.toNat % 16)] := by
        unfold escapeChar
        rw [if_neg h1, if_neg h2, if_neg h3, if_neg h4, if_neg h5, if_neg h6, if_neg h7,
            if_pos h8]
      rw [hesc]
      have hx1 : hexVal? (hexDigitChar (c.toNat / 16)) = some (c.toNat / 16) :=
        hexVal?_hexDigitChar (by omega)
      have hx2 : hexVal? (hexDigitChar (c.toNat % 16)) = some (c.toNat % 16) :=
        hexVal?_hexDigitChar (Nat.mod_lt _ (by omega))
      have harith : ((0 * 16 + 0) * 16 + c.toNat / 16) * 16 + c.toNat % 16 = c.toNat := by
        omega
      have hu := parseStringBody_u_escape (hexDigitChar (c.toNat / 16))
        (hexDigitChar (c.toNat % 16)) (c.toNat / 16) (c.toNat % 16) X l rest hx1 hx2 ih
        (by omega)
      rw [harith, Char.ofNat_toNat] at hu
      exact hu
    · have hesc : escapeChar c = [c] := by
        unfold escapeChar
        rw [if_neg h1, if_neg h2, if_neg h3, if_neg h4, if_neg h5, if_neg h6, if_neg h7,
            if_neg h8]
      rw [hesc]
      show parseStringBody (c :: X) = some (c :: l, rest)
      rw [parseStringBody.eq_def]
      dsimp only
      rw [if_neg h1, if_neg h2, if_neg h8, ih]
      rfl

/-! ## Round-trip: structural lemmas -/

theorem numOk_comma (t : List Char) : numOk (',' :: t) = true := rfl

theorem numOk_newline (t : List Char) : numOk ('\n' :: t) = true := rfl

theorem numOk_indent (lvl : Nat) (t : List Char) :
    numOk (indentChars lvl ++ t) = true := rfl

theorem ne_of_toNat_ne {c d : Char} (h : c.toNat ≠ d.toNat) : ¬(c = d) := by
  intro hcd
  exact h (congrArg Char.toNat hcd)

theorem num_head_toNat {c : Char} (hc : c = '-' ∨ c.isDigit = true) :
    c.toNat = 45 ∨ (48 ≤ c.toNat ∧ c.toNat ≤ 57) := by
  rcases hc with rfl | hc
  · left; rfl
  · right
    simp only [Char.isDigit, decide_eq_true_eq, Bool.and_eq_true] at hc
    exact hc

theorem parseValue_succ_num_head (fuel : Nat) (c : Char) (t : List Char)
    (hc : c = '-' ∨ c.isDigit = true) :
    parseValue (fuel + 1) (c :: t) = (parseNumber (c :: t)).map (fun p => (.num p.1, p.2)) := by
  have hcn := num_head_toNat hc
  have hcond : (decide (c = '-') || c.isDigit) = true := by
    rcases hc with rfl | hc
    · simp
    · simp [hc]
  rw [parseValue.eq_def]
  dsimp only
  rw [if_neg (fun h => by subst h; revert hcn; decide),
      if_neg (fun h => by subst h; revert hcn; decide),
      if_neg (fun h => by subst h; revert hcn; decide),
      if_neg (fun h => by subst h; revert hcn; decide),
      if_neg (fun h => by subst h; revert hcn; decide),
      if_neg (fun h => by subst h; revert hcn; decide),
      if_pos hcond]

theorem renderJson_head (v : Json) (lvl : Nat) :
    ∃ c t, renderJson lvl v = c :: t ∧ isWsB c = false ∧ ¬(c = ']') := by
  cases v with
  | null => exact ⟨'n', _, rfl, by decide, by decide⟩
  | bool b => cases b with
    | true => exact ⟨'t', _, rfl, by decide, by decide⟩
    | false => exact ⟨'f', _, rfl, by decide, by decide⟩
  | num n =>
    show ∃ c t, intToChars n = c :: t ∧ _
    unfold intToChars
    by_cases hn : n < 0
    · rw [if_pos hn]
      exact ⟨'-', _, rfl, by decide, by decide⟩
    · rw [if_neg hn]
      cases hnc : natToChars n.toNat with
      | nil => exact absurd hnc (natToChars_ne_nil _)
      | cons d ds =>
        have hd : d.isDigit = true := natToChars_digits _ d (hnc ▸ List.mem_cons_self d ds)
        exact ⟨d, ds, rfl, isDigit_not_ws hd, fun h => by subst h; revert hd; decide⟩
  | str s => exact ⟨'"', _, rfl, by decide, by decide⟩
  | arr items => cases items with
    | nil => exact ⟨'[', _, rfl, by decide, by decide⟩
    | cons x xs => exact ⟨'[', _, rfl, by decide, by decide⟩
  | obj fields => cases fields with
    | nil => exact ⟨obraceC, _, rfl, by decide, by decide⟩
    | cons f fs =>
      obtain ⟨k, v⟩ := f
      exact ⟨obraceC, _, rfl, by decide, by decide⟩

theorem skipWs_renderJson (v : Json) (lvl : Nat) (r : List Char) :
    skipWs (renderJson lvl v ++ r) = renderJson lvl v ++ r := by
  obtain ⟨c, t, hct, hws, -⟩ := renderJson_head v lvl
  rw [hct, List.cons_append]
  exact skipWs_cons_not_ws _ hws

theorem insertKey_of_not_mem : ∀ {acc : List (String × Json)} {k : String} (v : Json),
    k ∉ acc.map Prod.fst → insertKey acc k v = acc ++ [(k, v)]
  | [], _, _, _ => rfl
  | (k', v') :: acc, k, v, h => by
    have hne : ¬(k' = k) := by
      intro hk
      exact h (hk ▸ List.mem_map_of_mem Prod.fst (List.mem_cons_self (k', v') acc))
    simp only [insertKey, if_neg hne, List.cons_append, List.cons.injEq, true_and]
    exact insertKey_of_not_mem v (fun hm => h (by
      simp only [List.map_cons, List.mem_cons]
      exact Or.inr hm))

theorem buildDict_go_of_nodup : ∀ (ps acc : List (String × Json)),
    ((acc ++ ps).map Prod.fst).Nodup →
    ps.foldl (fun acc p => insertKey acc p.1 p.2) acc = acc ++ ps
  | [], acc, _ => by simp
  | (k, v) :: ps, acc, h => by
    have hk : k ∉ acc.map Prod.fst := by
      intro hm
      rw [List.map_append] at h
      have hdisj := (List.nodup_append.mp h).2.2
      exact hdisj hm (by simp)
    rw [List.foldl_cons, insertKey_of_not_mem v hk]
    have h2 : (((acc ++ [(k, v)]) ++ ps).map Prod.fst).Nodup := by
      rw [List.append_assoc]
      simpa using h
    rw [buildDict_go_of_nodup ps (acc ++ [(k, v)]) h2, List.append_assoc]
    rfl

theorem buildDict_self {ps : List (String × Json)} (h : (ps.map Prod.fst).Nodup) :
    buildDict ps = ps := by
  have := buildDict_go_of_nodup ps [] (by simpa using h)
  simpa [buildDict] using this

theorem parseValue_succ_null (fuel : Nat) (t : List Char) :
    parseValue (fuel + 1) ('n' :: 'u' :: 'l' :: 'l' :: t) = some (.null, t) := by
  rw [parseValue.eq_def]
  rfl

theorem parseValue_succ_true (fuel : Nat) (t : List Char) :
    parseValue (fuel + 1) ('t' :: 'r' :: 'u' :: 'e' :: t) = some (.bool true, t) := by
  rw [parseValue.eq_def]
  rfl

theorem parseValue_succ_false (fuel : Nat) (t : List Char) :
    parseValue (fuel + 1) ('f' :: 'a' :: 'l' :: 's' :: 'e' :: t) = some (.bool false, t) := by
  rw [parseValue.eq_def]
  rfl

theorem parseValue_succ_str (fuel : Nat) (t : List Char) :
    parseValue (fuel + 1) ('"' :: t)
      = (parseStringBody t).map (fun p => (.str ⟨p.1⟩, p.2)) := by
  rw [parseValue.eq_def]
  rfl

theorem parseValue_succ_arr (fuel : Nat) (t : List Char) :
    parseValue (fuel + 1) ('[' :: t)
      = (match skipWs t with
         | ']' :: r => some (.arr [], r)
         | s1 => (parseItems fuel s1).map (fun p => (.arr p.1, p.2))) := by
  rw [parseValue.eq_def]
  rfl

theorem parseValue_succ_obj (fuel : Nat) (t : List Char) :
    parseValue (fuel + 1) (obraceC :: t)
      = (match skipWs t with
         | c2 :: r =>
           if c2 = cbraceC then some (.obj [], r)
           else (parseFields fuel (c2 :: r)).map (fun p => (.obj (buildDict p.1), p.2))
         | [] => none) := by
  rw [parseValue.eq_def]
  rfl

theorem jsize_pos : ∀ v : Json, 1 ≤ jsize v
  | .null => le_refl 1
  | .bool _ => le_refl 1
  | .num _ => le_refl 1
  | .str _ => le_refl 1
  | .arr items => by simp [jsize]
  | .obj fields => by simp [jsize]

theorem skipWs_cons_ws {c : Char} (t : List Char) (h : isWsB c = true) :
    skipWs (c :: t) = skipWs t := by
  simp [skipWs, h]

theorem numOk_items_ctx (lvl lvl2 : Nat) (xs : List Json) (t : List Char) :
    numOk (renderItems lvl xs ++ (indentChars lvl2 ++ t)) = true := by
  cases xs with
  | nil => simp only [renderItems, List.nil_append]; exact numOk_indent _ _
  | cons y ys => simp only [renderItems, List.cons_append]; exact numOk_comma _

theorem numOk_fields_ctx (lvl lvl2 : Nat) (fs : List (String × Json)) (t : List Char) :
    numOk (renderFields lvl fs ++ (indentChars lvl2 ++ t)) = true := by
  cases fs with
  | nil => simp only [renderFields, List.nil_append]; exact numOk_indent _ _
  | cons f fs' =>
    obtain ⟨k, v⟩ := f
    simp only [renderFields, List.cons_append]
    exact numOk_comma _

mutual

theorem parseValue_render : ∀ (v : Json) (lvl fuel : Nat) (rest : List Char),
    Jwf v → jsize v ≤ fuel → numOk rest = true →
    parseValue fuel (renderJson lvl v ++ rest) = some (v, rest)
  | .null, lvl, fuel, rest, _, hfuel, _ => by
    obtain ⟨f, rfl⟩ : ∃ f, fuel = f + 1 :=
      ⟨fuel - 1, by have := jsize_pos Json.null; omega⟩
    simp only [renderJson, List.cons_append, List.nil_append]
    exact parseValue_succ_null f rest
  | .bool true, lvl, fuel, rest, _, hfuel, _ => by
    obtain ⟨f, rfl⟩ : ∃ f, fuel = f + 1 :=
      ⟨fuel - 1, by have := jsize_pos (Json.bool true); omega⟩
    simp only [renderJson, List.cons_append, List.nil_append]
    exact parseValue_succ_true f rest
  | .bool false, lvl, fuel, rest, _, hfuel, _ => by
    obtain ⟨f, rfl⟩ : ∃ f, fuel = f + 1 :=
      ⟨fuel - 1, by have := jsize_pos (Json.bool false); omega⟩
    simp only [renderJson, List.cons_append, List.nil_append]
    exact parseValue_succ_false f rest
  | .num n, lvl, fuel, rest, _, hfuel, hrest => by
    obtain ⟨f, rfl⟩ : ∃ f, fuel = f + 1 :=
      ⟨fuel - 1, by have := jsize_pos (Json.num n); omega⟩
    simp only [renderJson]
    cases hic : intToChars n with
    | nil =>
      exfalso
      unfold intToChars at hic
      by_cases hn : n < 0
      · rw [if_pos hn] at hic; cases hic
      · rw [if_neg hn] at hic; exact natToChars_ne_nil _ hic
    | cons c t =>
      have hc : c = '-' ∨ c.isDigit = true := by
        unfold intToChars at hic
        by_cases hn : n < 0
        · rw [if_pos hn] at hic
          exact Or.inl ((List.cons.injEq _ _ _ _).mp hic).1.symm
        · rw [if_neg hn] at hic
          exact Or.inr (natToChars_digits _ c (by rw [hic]; exact List.mem_cons_self c t))
      rw [List.cons_append, parseValue_succ_num_head f c (t ++ rest) hc,
          ← List.cons_append, ← hic, parseNumber_intToChars n hrest]
      rfl
  | .str s, lvl, fuel, rest, _, hfuel, _ => by
    obtain ⟨f, rfl⟩ : ∃ f, fuel = f + 1 :=
      ⟨fuel - 1, by have := jsize_pos (Json.str s); omega⟩
    simp only [renderJson, renderString, List.cons_append, List.append_assoc,
      List.singleton_append, List.nil_append]
    rw [parseValue_succ_str, parseStringBody_encode s.data rest]
    rfl
  | .arr [], lvl, fuel, rest, _, hfuel, _ => by
    obtain ⟨f, rfl⟩ : ∃ f, fuel = f + 1 :=
      ⟨fuel - 1, by have := jsize_pos (Json.arr []); omega⟩
    simp only [renderJson, List.cons_append, List.nil_append]
    rw [parseValue_succ_arr, skipWs_cons_not_ws rest (by decide)]
    rfl
  | .arr (x :: xs), lvl, fuel, rest, hwf, hfuel, hrest => by
    have hJ : Jwf x ∧ JwfL xs := by
      have : JwfL (x :: xs) := hwf
      exact this
    have hsz : 1 + jsizeL (x :: xs) ≤ fuel := by
      have : jsize (Json.arr (x :: xs)) = 1 + jsizeL (x :: xs) := rfl
      omega
    have hszx : 1 + jsize x + jsizeL xs ≤ jsizeL (x :: xs) := by
      have : jsizeL (x :: xs) = 1 + jsize x + jsizeL xs := rfl
      omega
    obtain ⟨f, rfl⟩ : ∃ f, fuel = f + 1 := ⟨fuel - 1, by omega⟩
    simp only [renderJson, List.cons_append, List.append_assoc, List.singleton_append,
      List.nil_append]
    rw [parseValue_succ_arr, skipWs_ws_front _ (indentChars_ws (lvl + 1)),
        skipWs_renderJson]
    obtain ⟨c0, t0, hh, -, hne⟩ := renderJson_head x (lvl + 1)
    rw [hh, List.cons_append]
    split
    · rename_i r heq
      rw [List.cons.injEq] at heq
      exact absurd heq.1 hne
    · rw [← List.cons_append, ← hh,
          parseItems_render x xs lvl f rest hJ.1 hJ.2 (by omega) hrest]
      rfl
  | .obj [], lvl, fuel, rest, _, hfuel, _ => by
    obtain ⟨f, rfl⟩ : ∃ f, fuel = f + 1 :=
      ⟨fuel - 1, by have := jsize_pos (Json.obj []); omega⟩
    simp only [renderJson, List.cons_append, List.nil_append]
    rw [parseValue_succ_obj, skipWs_cons_not_ws rest (by decide)]
    simp
  | .obj ((k, v) :: fs), lvl, fuel, rest, hwf, hfuel, hrest => by
    have hnd : (((k, v) :: fs).map Prod.fst).Nodup := hwf.1
    have hJv : Jwf v := hwf.2.1
    have hJfs : JwfF fs := hwf.2.2
    have hsz : 1 + jsizeF ((k, v) :: fs) ≤ fuel := by
      have : jsize (Json.obj ((k, v) :: fs)) = 1 + jsizeF ((k, v) :: fs) := rfl
      omega
    obtain ⟨f, rfl⟩ : ∃ f, fuel = f + 1 := ⟨fuel - 1, by omega⟩
    simp only [renderJson, renderString, List.cons_append, List.append_assoc,
      List.singleton_append, List.nil_append]
    rw [parseValue_succ_obj, skipWs_ws_front _ (indentChars_ws (lvl + 1)),
        skipWs_cons_not_ws _ (by decide)]
    dsimp only
    have hbr : ¬(('"' : Char) = cbraceC) := by decide
    rw [if_neg hbr,
        parseFields_render k v fs lvl f rest hJv hJfs (by omega) hrest]
    simp only [Option.map_some']
    rw [buildDict_self hnd]
  termination_by v lvl fuel rest => sizeOf v
  decreasing_by all_goals (first | (simp_wf; subst_vars; omega) | (simp_wf; subst_vars; simp <;> omega) | simp_wf | omega)

theorem parseItems_render : ∀ (x : Json) (xs : List Json) (lvl fuel : Nat) (rest : List Char),
    Jwf x → JwfL xs → jsizeL (x :: xs) ≤ fuel → numOk rest = true →
    parseItems fuel
        (renderJson (lvl + 1) x ++
          (renderItems (lvl + 1) xs ++ (indentChars lvl ++ (']' :: rest))))
      = some (x :: xs, rest)
  | x, [], lvl, fuel, rest, hJx, _, hfuel, hrest => by
    have hsz : 1 + jsize x + jsizeL [] ≤ fuel := by
      have : jsizeL [x] = 1 + jsize x + jsizeL [] := rfl
      omega
    obtain ⟨f, rfl⟩ : ∃ f, fuel = f + 1 := ⟨fuel - 1, by omega⟩
    rw [parseItems.eq_def]
    dsimp only
    rw [parseValue_render x (lvl + 1) f _ hJx (by omega) (numOk_items_ctx _ _ _ _)]
    simp only [renderItems, List.nil_append]
    rw [skipWs_ws_front _ (indentChars_ws lvl), skipWs_cons_not_ws rest (by decide)]
    split
    · rename_i r2 heq
      rw [List.cons.injEq] at heq
      exact absurd heq.1 (by decide)
    · rename_i r2 heq
      rw [List.cons.injEq] at heq
      rw [heq.2]
    · rename_i h1 h2
      exact absurd rfl (h2 rest)
  | x, y :: ys, lvl, fuel, rest, hJx, hJxs, hfuel, hrest => by
    have hsz : 1 + jsize x + jsizeL (y :: ys) ≤ fuel := by
      have : jsizeL (x :: y :: ys) = 1 + jsize x + jsizeL (y :: ys) := rfl
      omega
    have hJy : Jwf y := hJxs.1
    have hJys : JwfL ys := hJxs.2
    have hszy : 1 + jsize y + jsizeL ys ≤ jsizeL (y :: ys) := by
      have : jsizeL (y :: ys) = 1 + jsize y + jsizeL ys := rfl
      omega
    obtain ⟨f, rfl⟩ : ∃ f, fuel = f + 1 := ⟨fuel - 1, by omega⟩
    rw [parseItems.eq_def]
    dsimp only
    rw [parseValue_render x (lvl + 1) f _ hJx (by omega) (numOk_items_ctx _ _ _ _)]
    simp only [renderItems, List.cons_append, List.append_assoc]
    rw [skipWs_cons_not_ws _ (by decide)]
    split
    · rename_i r2 heq
      rw [List.cons.injEq] at heq
      rw [← heq.2]
      rw [skipWs_ws_front _ (indentChars_ws (lvl + 1)), skipWs_renderJson,
          parseItems_render y ys lvl f rest hJy hJys (by omega) hrest]
    · rename_i r2 heq
      rw [List.cons.injEq] at heq
      exact absurd heq.1 (by decide)
    · rename_i h1 h2
      exact absurd rfl (h1 _)
  termination_by x xs => 1 + sizeOf x + sizeOf xs
  decreasing_by all_goals (first | (simp_wf; subst_vars; omega) | (simp_wf; subst_vars; simp <;> omega) | simp_wf | omega)

theorem parseFields_render : ∀ (k : String) (v : Json) (fs : List (String × Json))
    (lvl fuel : Nat) (rest : List Char),
    Jwf v → JwfF fs → jsizeF ((k, v) :: fs) ≤ fuel → numOk rest = true →
    parseFields fuel
        ('"' :: ((k.data.map escapeChar).flatten ++
          ('"' :: (':' :: (' ' :: (renderJson (lvl + 1) v ++
            (renderFields (lvl + 1) fs ++ (indentChars lvl ++ (cbraceC :: rest)))))))))
      = some ((k, v) :: fs, rest)
  | k, v, [], lvl, fuel, rest, hJv, _, hfuel, hrest => by
    have hsz : 1 + jsize v + jsizeF [] ≤ fuel := by
      have : jsizeF [(k, v)] = 1 + jsize v + jsizeF [] := rfl
      omega
    obtain ⟨f, rfl⟩ : ∃ f, fuel = f + 1 := ⟨fuel - 1, by omega⟩
    rw [parseFields.eq_def]
    dsimp only
    split
    · rename_i T heqT
      rw [List.cons.injEq] at heqT
      rw [← heqT.2]
      rw [parseStringBody_encode k.data]
      dsimp only
      rw [skipWs_cons_not_ws _ (by decide)]
      split
      · rename_i r2 heq2
        rw [List.cons.injEq] at heq2
        rw [← heq2.2]
        rw [skipWs_cons_ws _ (by decide), skipWs_renderJson,
            parseValue_render v (lvl + 1) f _ hJv (by omega) (numOk_fields_ctx _ _ _ _)]
        dsimp only
        simp only [renderFields, List.nil_append]
        rw [skipWs_ws_front _ (indentChars_ws lvl), skipWs_cons_not_ws rest (by decide)]
        split
        · rename_i r4 heq3
          rw [List.cons.injEq] at heq3
          exact absurd heq3.1 (by decide)
        · rename_i c5 r4 hne heq3
          rw [List.cons.injEq] at heq3
          rw [if_pos heq3.1.symm, ← heq3.2]
        · rename_i heq3
          cases heq3
      · rename_i h1
        exact absurd rfl (h1 _)
    · rename_i h1
      exact absurd rfl (h1 _)
  | k, v, (k2, v2) :: fs2, lvl, fuel, rest, hJv, hJfs, hfuel, hrest => by
    have hsz : 1 + jsize v + jsizeF ((k2, v2) :: fs2) ≤ fuel := by
      have : jsizeF ((k, v) :: (k2, v2) :: fs2)
          = 1 + jsize v + jsizeF ((k2, v2) :: fs2) := rfl
      omega
    have hJv2 : Jwf v2 := hJfs.1
    have hJfs2 : JwfF fs2 := hJfs.2
    have hsz2 : 1 + jsize v2 + jsizeF fs2 ≤ jsizeF ((k2, v2) :: fs2) := by
      have : jsizeF ((k2, v2) :: fs2) = 1 + jsize v2 + jsizeF fs2 := rfl
      omega
    obtain ⟨f, rfl⟩ : ∃ f, fuel = f + 1 := ⟨fuel - 1, by omega⟩
    rw [parseFields.eq_def]
    dsimp only
    split
    · rename_i T heqT
      rw [List.cons.injEq] at heqT
      rw [← heqT.2]
      rw [parseStringBody_encode k.data]
      dsimp only
      rw [skipWs_cons_not_ws _ (by decide)]
      split
      · rename_i r2 heq2
        rw [List.cons.injEq] at heq2
        rw [← heq2.2]
        rw [skipWs_cons_ws _ (by decide), skipWs_renderJson,
            parseValue_render v (lvl + 1) f _ hJv (by omega) (numOk_fields_ctx _ _ _ _)]
        dsimp only
        simp only [renderFields, renderString, List.cons_append, List.append_assoc,
          List.singleton_append, List.nil_append]
        rw [skipWs_cons_not_ws _ (by decide)]
        split
        · rename_i r4 heq3
          rw [List.cons.injEq] at heq3
          rw [← heq3.2]
          rw [skipWs_ws_front _ (indentChars_ws (lvl + 1)),
              skipWs_cons_not_ws _ (by decide),
              parseFields_render k2 v2 fs2 lvl f rest hJv2 hJfs2 (by omega) hrest]
        · rename_i c5 r4 hne heq3
          rw [List.cons.injEq] at heq3
          exact absurd heq3.1.symm hne
        · rename_i heq3
          cases heq3
      · rename_i h1
        exact absurd rfl (h1 _)
    · rename_i h1
      exact absurd rfl (h1 _)
  termination_by k v fs => 1 + sizeOf v + sizeOf fs
  decreasing_by all_goals (first | (simp_wf; subst_vars; omega) | (simp_wf; subst_vars; simp <;> omega) | simp_wf | omega)
end

theorem insertKey_keys_of_mem : ∀ {acc : List (String × Json)} {k : String} (v : Json),
    k ∈ acc.map Prod.fst → (insertKey acc k v).map Prod.fst = acc.map Prod.fst
  | [], k, v, h => by cases h
  | (k', v') :: acc, k, v, h => by
    by_cases hk : k' = k
    · simp only [insertKey, if_pos hk, List.map_cons]
    · simp only [insertKey, if_neg hk, List.map_cons]
      have hm : k ∈ acc.map Prod.fst := by
        simp only [List.map_cons, List.mem_cons] at h
        rcases h with h | h
        · exact absurd h.symm hk
        · exact h
      rw [insertKey_keys_of_mem v hm]

theorem insertKey_keys_nodup {acc : List (String × Json)} {k : String} (v : Json)
    (h : (acc.map Prod.fst).Nodup) : ((insertKey acc k v).map Prod.fst).Nodup := by
  by_cases hk : k ∈ acc.map Prod.fst
  · rw [insertKey_keys_of_mem v hk]
    exact h
  · rw [insertKey_of_not_mem v hk]
    simp only [List.map_append, List.map_cons, List.map_nil]
    rw [List.nodup_append]
    exact ⟨h, List.nodup_singleton k, by
      intro a ha hmem
      simp only [List.mem_singleton] at hmem
      exact hk (hmem ▸ ha)⟩

theorem JwfF_insertKey : ∀ {acc : List (String × Json)} {k : String} {v : Json},
    JwfF acc → Jwf v → JwfF (insertKey acc k v)
  | [], k, v, _, hv => ⟨hv, trivial⟩
  | (k', v') :: acc, k, v, hacc, hv => by
    by_cases hk : k' = k
    · simp only [insertKey, if_pos hk]
      exact ⟨hv, hacc.2⟩
    · simp only [insertKey, if_neg hk]
      exact ⟨hacc.1, JwfF_insertKey hacc.2 hv⟩

theorem buildDict_go_jwf : ∀ (ps acc : List (String × Json)),
    JwfF acc → JwfF ps →
    JwfF (ps.foldl (fun acc p => insertKey acc p.1 p.2) acc)
  | [], _, hacc, _ => hacc
  | (k, v) :: ps, acc, hacc, hps =>
    buildDict_go_jwf ps _ (JwfF_insertKey hacc hps.1) hps.2

theorem buildDict_go_nodup : ∀ (ps acc : List (String × Json)),
    ((acc.map Prod.fst)).Nodup →
    (((ps.foldl (fun acc p => insertKey acc p.1 p.2) acc)).map Prod.fst).Nodup
  | [], _, hacc => hacc
  | (k, v) :: ps, acc, hacc =>
    buildDict_go_nodup ps _ (insertKey_keys_nodup v hacc)

theorem Jwf_obj_buildDict {ps : List (String × Json)} (h : JwfF ps) :
    Jwf (.obj (buildDict ps)) :=
  ⟨buildDict_go_nodup ps [] (by simp), buildDict_go_jwf ps [] trivial h⟩

/-! ## Parsed values are well-formed -/

mutual

theorem parseValue_jwf : ∀ (fuel : Nat) (s : List Char) (v : Json) (r : List Char),
    parseValue fuel s = some (v, r) → Jwf v
  | 0, s, v, r => by
    intro h
    rw [parseValue.eq_def] at h
    exact absurd h (by simp)
  | fuel + 1, s, v, r => by
    intro h
    rw [parseValue.eq_def] at h
    dsimp only at h
    split at h
    · exact absurd h (by simp)
    · split at h
      · split at h
        · simp only [Option.some.injEq, Prod.mk.injEq] at h
          rw [← h.1]; trivial
        · exact absurd h (by simp)
      · split at h
        · split at h
          · simp only [Option.some.injEq, Prod.mk.injEq] at h
            rw [← h.1]; trivial
          · exact absurd h (by simp)
        · split at h
          · split at h
            · simp only [Option.some.injEq, Prod.mk.injEq] at h
              rw [← h.1]; trivial
            · exact absurd h (by simp)
          · split at h
            · rcases Option.map_eq_some'.mp h with ⟨p, hp, hpe⟩
              simp only [Prod.mk.injEq] at hpe
              rw [← hpe.1]; trivial
            · split at h
              · split at h
                · simp only [Option.some.injEq, Prod.mk.injEq] at h
                  rw [← h.1]; trivial
                · rcases Option.map_eq_some'.mp h with ⟨p, hp, hpe⟩
                  simp only [Prod.mk.injEq] at hpe
                  rw [← hpe.1]
                  exact parseItems_jwf fuel _ p.1 p.2 hp
              · split at h
                · split at h
                  · split at h
                    · simp only [Option.some.injEq, Prod.mk.injEq] at h
                      rw [← h.1]
                      exact ⟨by simp, trivial⟩
                    · rcases Option.map_eq_some'.mp h with ⟨p, hp, hpe⟩
                      simp only [Prod.mk.injEq] at hpe
                      rw [← hpe.1]
                      exact Jwf_obj_buildDict (parseFields_jwf fuel _ p.1 p.2 hp)
                  · exact absurd h (by simp)
                · split at h
                  · rcases Option.map_eq_some'.mp h with ⟨p, hp, hpe⟩
                    simp only [Prod.mk.injEq] at hpe
                    rw [← hpe.1]; trivial
                  · exact absurd h (by simp)
termination_by fuel s v r => fuel

theorem parseItems_jwf : ∀ (fuel : Nat) (s : List Char) (vs : List Json) (r : List Char),
    parseItems fuel s = some (vs, r) → JwfL vs
  | 0, s, vs, r => by
    intro h
    rw [parseItems.eq_def] at h
    exact absurd h (by simp)
  | fuel + 1, s, vs, r => by
    intro h
    rw [parseItems.eq_def] at h
    dsimp only at h
    split at h
    · exact absurd h (by simp)
    · rename_i v1 r1 heq
      split at h
      · rename_i r2 heq2
        split at h
        · rename_i vs1 r3 heq3
          simp only [Option.some.injEq, Prod.mk.injEq] at h
          rw [← h.1]
          exact ⟨parseValue_jwf fuel _ v1 r1 heq, parseItems_jwf fuel _ vs1 r3 heq3⟩
        · exact absurd h (by simp)
      · rename_i r2 heq2
        simp only [Option.some.injEq, Prod.mk.injEq] at h
        rw [← h.1]
        exact ⟨parseValue_jwf fuel _ v1 r1 heq, trivial⟩
      · exact absurd h (by simp)
termination_by fuel s vs r => fuel

theorem parseFields_jwf : ∀ (fuel : Nat) (s : List Char) (ps : List (String × Json)) (r : List Char),
    parseFields fuel s = some (ps, r) → JwfF ps
  | 0, s, ps, r => by
    intro h
    rw [parseFields.eq_def] at h
    exact absurd h (by simp)
  | fuel + 1, s, ps, r => by
    intro h
    rw [parseFields.eq_def] at h
    dsimp only at h
    split at h
    · split at h
      · exact absurd h (by simp)
      · rename_i k r1 heq
        split at h
        · rename_i r2 heq2
          split at h
          · exact absurd h (by simp)
          · rename_i v1 r3 heq3
            split at h
            · rename_i r4 heq4
              split at h
              · rename_i ps1 r5 heq5
                simp only [Option.some.injEq, Prod.mk.injEq] at h
                rw [← h.1]
                exact ⟨parseValue_jwf fuel _ v1 r3 heq3, parseFields_jwf fuel _ ps1 r5 heq5⟩
              · exact absurd h (by simp)
            · split at h
              · simp only [Option.some.injEq, Prod.mk.injEq] at h
                rw [← h.1]
                exact ⟨parseValue_jwf fuel _ v1 r3 heq3, trivial⟩
              · exact absurd h (by simp)
            · exact absurd h (by simp)
        · exact absurd h (by simp)
    · exact absurd h (by simp)
termination_by fuel s ps r => fuel

end

theorem natToChars_length_pos (n : Nat) : 1 ≤ (natToChars n).length := by
  simp only [natToChars, natToCharsF]
  split
  · simp
  · simp

theorem intToChars_length_pos (i : Int) : 1 ≤ (intToChars i).length := by
  unfold intToChars
  split
  · simp
  · exact natToChars_length_pos _

mutual

theorem jsize_le_render : ∀ (v : Json) (lvl : Nat), jsize v ≤ (renderJson lvl v).length
  | .null, lvl => by simp [jsize, renderJson]
  | .bool true, lvl => by simp [jsize, renderJson]
  | .bool false, lvl => by simp [jsize, renderJson]
  | .num n, lvl => by
    simp only [jsize, renderJson]
    exact intToChars_length_pos n
  | .str s, lvl => by simp [jsize, renderJson, renderString]
  | .arr [], lvl => by simp [jsize, jsizeL, renderJson]
  | .arr (x :: xs), lvl => by
    have h1 := jsize_le_render x (lvl + 1)
    have h2 := jsizeL_le_render xs (lvl + 1)
    simp only [jsize, jsizeL, renderJson, List.length_append, List.length_cons,
      indentChars, List.length_replicate]
    omega
  | .obj [], lvl => by simp [jsize, jsizeF, renderJson]
  | .obj ((k, v) :: fs), lvl => by
    have h1 := jsize_le_render v (lvl + 1)
    have h2 := jsizeF_le_render fs (lvl + 1)
    simp only [jsize, jsizeF, renderJson, List.length_append, List.length_cons,
      indentChars, List.length_replicate, renderString]
    omega
termination_by v lvl => sizeOf v

theorem jsizeL_le_render : ∀ (xs : List Json) (lvl : Nat), jsizeL xs ≤ (renderItems lvl xs).length
  | [], lvl => by simp [jsizeL, renderItems]
  | x :: xs, lvl => by
    have h1 := jsize_le_render x lvl
    have h2 := jsizeL_le_render xs lvl
    simp only [jsizeL, renderItems, List.length_append, List.length_cons,
      indentChars, List.length_replicate]
    omega
termination_by xs lvl => sizeOf xs

theorem jsizeF_le_render : ∀ (fs : List (String × Json)) (lvl : Nat), jsizeF fs ≤ (renderFields lvl fs).length
  | [], lvl => by simp [jsizeF, renderFields]
  | (k, v) :: fs, lvl => by
    have h1 := jsize_le_render v lvl
    have h2 := jsizeF_le_render fs lvl
    simp only [jsizeF, renderFields, List.length_append, List.length_cons,
      indentChars, List.length_replicate, renderString]
    omega
termination_by fs lvl => sizeOf fs

end

/-! ## `loads` after `dumps`, and `load_feeds` after `save_feeds` -/

theorem loads_dumps {v : Json} (hw : Jwf v) :
    loads ⟨renderJson 0 v ++ ['\n']⟩ = some v := by
  unfold loads
  rw [show (String.mk (renderJson 0 v ++ ['\n'])).data = renderJson 0 v ++ ['\n'] from rfl]
  rw [skipWs_renderJson]
  have hfuel : jsize v ≤ (renderJson 0 v ++ ['\n']).length + 1 := by
    have := jsize_le_render v 0
    simp only [List.length_append, List.length_cons, List.length_nil]
    omega
  rw [parseValue_render v 0 _ ['\n'] hw hfuel (by decide)]
  rfl

theorem loads_jwf {s : String} {v : Json} (h : loads s = some v) : Jwf v := by
  unfold loads at h
  split at h
  · rename_i v1 r1 heq
    split at h
    · simp only [Option.some.injEq] at h
      rw [← h]
      exact parseValue_jwf _ _ _ _ heq
    · exact absurd h (by simp)
  · exact absurd h (by simp)

theorem mapM_unobj_map_obj : ∀ (feeds : List Record),
    (feeds.map Json.obj).mapM (fun j => match j with | .obj fs => some fs | _ => none) = some feeds
  | [] => rfl
  | f :: fs => by
    simp only [List.map_cons, List.mapM_cons, mapM_unobj_map_obj fs]
    rfl

theorem mapM_unobj_eq : ∀ (items : List Json) (feeds : List Record),
    items.mapM (fun j => match j with | .obj fs => some fs | _ => none) = some feeds →
    items = feeds.map Json.obj
  | [], feeds, h => by
    simp only [List.mapM_nil, Option.pure_def, Option.some.injEq] at h
    rw [← h]
    rfl
  | j :: items, feeds, h => by
    cases j with
    | obj fs =>
      simp only [List.mapM_cons, Option.pure_def, Option.bind_eq_bind,
        Option.bind_eq_some, Option.some.injEq] at h
      obtain ⟨y, hy, ys, hys, hfe⟩ := h
      have hy2 : fs = y := hy
      rw [← hfe, ← hy2]
      simp only [List.map_cons]
      rw [← mapM_unobj_eq items ys hys]
    | null =>
      rw [List.mapM_cons] at h
      simp at h
    | bool b =>
      rw [List.mapM_cons] at h
      simp at h
    | num n =>
      rw [List.mapM_cons] at h
      simp at h
    | str s =>
      rw [List.mapM_cons] at h
      simp at h
    | arr xs =>
      rw [List.mapM_cons] at h
      simp at h


/-! ## The claims -/

/-- Claim C1, counterexample: on the scenario input, a dry run finds two
removable records and leaves the data file byte-identical, yet the emitted
machine-readable signal is `has_changes=false`, not `has_changes=true` as the
claim states (lines 311-314 of the source emit `"false"` on the dry-run
path). -/
theorem dry_run_reports_true_cex :
    (runValidate true scenarioFile scenarioLp).map
        (fun r => (r.has_changes, r.removed_entries.length, r.file_content == scenarioFile))
      = some ("false", 2, true) := by rfl

/-- Claim C1, amended: in dry-run mode the run performs no file mutation (the
data file is left byte-identical) and emits the machine-readable signal
`has_changes=false`, whether or not removable records were found. -/
theorem dry_run_keeps_file_and_reports_false (fileContent : String) (lp : Launchpad)
    (r : RunResult) (h : runValidate true fileContent lp = some r) :
    r.file_content = fileContent ∧ r.has_changes = "false" := by
  unfold runValidate at h
  cases hl : load_feeds fileContent with
  | none => rw [hl] at h; cases h
  | some feeds =>
    rw [hl] at h
    dsimp only at h
    by_cases hre :
        (validate_memberships feeds (get_ubuntu_members lp) lp.people).removed_entries.isEmpty
    · rw [if_pos hre] at h
      cases h
      exact ⟨rfl, rfl⟩
    · rw [if_neg hre] at h
      cases h
      exact ⟨rfl, rfl⟩

/-- Witness for the amended claim C1, at the scenario input. -/
theorem dry_run_keeps_file_and_reports_false_witness :
    scenarioDryRunResult.file_content = scenarioFile
    ∧ scenarioDryRunResult.has_changes = "false" :=
  dry_run_keeps_file_and_reports_false scenarioFile scenarioLp scenarioDryRunResult (by rfl)

/-- Claim C2: a record is removed iff its identifier is classified with
outcome `not_member` or `not_found` (records with outcome `member` or `error`,
allow-listed records and records without a nick are kept), each removed record
is tagged with a `reason` equal to its identifier's outcome, and on the
three-record scenario (alice in the membership set; bob exists but is no
member; carol's lookup raises not-found) the surviving list is `[alice]`, the
removed list is `[bob(not_member), carol(not_found)]`, and `has_changes=true`
is emitted. -/
theorem removal_partition_matches_outcomes (feeds : List Record) (members : List String)
    (people : String → LookupResult) :
    ((validate_memberships feeds members people).valid_feeds
        = feeds.filter (fun f => !(specRemovable members people f))
      ∧ (validate_memberships feeds members people).removed_entries
        = (feeds.filter (specRemovable members people)).map
            (fun f => insertKey f "reason" (.str (specReason members people f))))
    ∧ ((validate_memberships scenarioFeeds ["alice"] scenarioLp.people).valid_feeds
        = [aliceRec]
      ∧ (validate_memberships scenarioFeeds ["alice"] scenarioLp.people).removed_entries
        = [bobRec ++ [("reason", .str "not_member")],
           carolRec ++ [("reason", .str "not_found")]]
      ∧ (runValidate false scenarioFile scenarioLp).map RunResult.has_changes
        = some "true") :=
  ⟨⟨validate_valid_eq feeds members people, validate_removed_eq feeds members people⟩,
   by rfl, by rfl, by rfl⟩

/-- Claim C3: an identifier whose lookup raises a non-not-found error is
classified `error` (when not short-circuited by the membership set), and every
record bearing that identifier survives and never appears among the removed
entries. -/
theorem lookup_error_never_removed (feeds : List Record) (members : List String)
    (people : String → LookupResult) (f : Record) (hf : f ∈ feeds)
    (herr : people (pyLower (getNick f)) = .apiError) :
    f ∈ (validate_memberships feeds members people).valid_feeds
    ∧ (∀ e ∈ (validate_memberships feeds members people).removed_entries,
        pyLower (getNick e) ≠ pyLower (getNick f))
    ∧ (pyLower (getNick f) ∉ members →
        check_single_nick members people (getNick f) = .error) := by
  have houtf : ∀ g : Record, pyLower (getNick g) = pyLower (getNick f) →
      check_single_nick members people (getNick g) = .member ∨
      check_single_nick members people (getNick g) = .error := by
    intro g hg
    rw [check_single_nick_congr hg, check_single_nick_eq]
    by_cases hm : pyLower (getNick f) ∈ members
    · rw [if_pos hm]; exact Or.inl rfl
    · rw [if_neg hm, herr]; exact Or.inr rfl
  have hremf : ∀ g : Record, pyLower (getNick g) = pyLower (getNick f) →
      specRemovable members people g = false := by
    intro g hg
    rcases houtf g hg with hout | hout <;>
      simp [specRemovable, hout]
  refine ⟨mem_valid_of_not_removable hf (hremf f rfl), ?_, ?_⟩
  · intro e he heq
    obtain ⟨g, -, hgr, hge⟩ := removed_origin he
    have := hremf g (hge ▸ heq)
    rw [this] at hgr
    cases hgr
  · intro hm
    rw [check_single_nick_eq, if_neg hm, herr]

/-- Witness for claim C3: a record whose lookup always errors survives. -/
theorem lookup_error_never_removed_witness :
    aliceRec ∈ (validate_memberships [aliceRec] [] (fun _ => .apiError)).valid_feeds
    ∧ check_single_nick [] (fun _ => .apiError) (getNick aliceRec) = .error :=
  ⟨(lookup_error_never_removed [aliceRec] [] (fun _ => .apiError) aliceRec
      (by simp) (by rfl)).1,
   (lookup_error_never_removed [aliceRec] [] (fun _ => .apiError) aliceRec
      (by simp) (by rfl)).2.2 (by simp)⟩

/-- Claim C4, counterexample: with the two records nicked `Bob` and `bob` and
an empty membership set, the run performs two lookups (one per original-case
variant) although there is exactly one distinct case-folded identifier, so
classification is not computed once per distinct case-folded identifier. -/
theorem case_variant_double_lookup_cex :
    (validate_memberships caseFeeds [] alwaysFound).lookup_calls = ["bob", "bob"]
    ∧ ((caseFeeds.map getNick).map pyLower).dedup = ["bob"] :=
  ⟨by rfl, by rfl⟩

/-- Claim C4, amended: classification is computed once per distinct
original-case identifier per run (not once per record) — one lookup per
unique non-member nick spelling, case variants of one case-folded identifier
being looked up separately — and any two records whose nicks are equal after
case-folding receive an identical classification outcome. -/
theorem classification_once_per_original_nick (feeds : List Record)
    (members : List String) (people : String → LookupResult) :
    ((validate_memberships feeds members people).lookup_calls
      = ((get_unique_nicks feeds).filter
          (fun n => !(members.contains (pyLower n)))).map pyLower)
    ∧ (get_unique_nicks feeds).Nodup
    ∧ (∀ f ∈ feeds, ∀ g ∈ feeds, pyLower (getNick f) = pyLower (getNick g) →
        check_single_nick members people (getNick f)
          = check_single_nick members people (getNick g)) :=
  ⟨validate_lookup_calls_eq feeds members people,
   List.nodup_dedup _,
   fun _ _ _ _ h => check_single_nick_congr h⟩

/-- Witness for the amended claim C4, at the two case-variant records. -/
theorem classification_once_per_original_nick_witness :
    ((validate_memberships caseFeeds [] alwaysFound).lookup_calls
      = ((get_unique_nicks caseFeeds).filter
          (fun n => !(([] : List String).contains (pyLower n)))).map pyLower)
    ∧ check_single_nick [] alwaysFound (getNick bobUpperRec)
        = check_single_nick [] alwaysFound (getNick bobRec) :=
  ⟨(classification_once_per_original_nick caseFeeds [] alwaysFound).1,
   (classification_once_per_original_nick caseFeeds [] alwaysFound).2.2
     bobUpperRec (by simp [caseFeeds]) bobRec (by simp [caseFeeds]) (by rfl)⟩

/-- Claim C5 (code bug): `save_feeds` opens the data file in truncating `"w"`
mode before `json.dump` runs, so a failure immediately after the open leaves
an empty file — neither the original content (here the serialization of
`[bobRec]`) nor the completed new serialization.  The write is not atomic and
does not fail cleanly. -/
theorem save_truncates_before_writing :
    save_feeds_interrupted [aliceRec] 0 = ""
    ∧ ("" : String) ≠ save_feeds [bobRec]
    ∧ ("" : String) ≠ save_feeds [aliceRec] :=
  ⟨rfl, by decide, by decide⟩

/-- Claim C6: under the Launchpad contract that participant names arrive
lowercased (code comment, line 65), the fetched membership set contains
exactly the participants — every direct and indirect member, the participant
list being the transitive expansion — and every element is case-folded. -/
theorem get_ubuntu_members_transitive_lowercase (lp : Launchpad)
    (h : ∀ n ∈ lp.participants, pyLower n = n) :
    (∀ m, m ∈ get_ubuntu_members lp ↔ m ∈ lp.participants)
    ∧ (∀ m ∈ get_ubuntu_members lp, pyLower m = m) :=
  ⟨fun _ => List.mem_dedup,
   fun m hm => h m (List.mem_dedup.mp hm)⟩

/-- Witness for claim C6, on a participant list with a duplicate. -/
theorem get_ubuntu_members_transitive_lowercase_witness :
    (("alice" ∈ get_ubuntu_members demoLp) ↔ ("alice" ∈ demoLp.participants))
    ∧ pyLower "bob" = "bob" :=
  ⟨(get_ubuntu_members_transitive_lowercase demoLp (by decide)).1 "alice",
   (get_ubuntu_members_transitive_lowercase demoLp (by decide)).2 "bob" (by decide)⟩

/-- Claim C7: a record whose nick is allow-listed (matched case-insensitively)
is kept for every membership set and every lookup behavior, its identifier is
never looked up, and no removed entry carries its nick. -/
theorem allowed_nick_kept_never_looked_up (feeds : List Record) (members : List String)
    (people : String → LookupResult) (f : Record) (hf : f ∈ feeds)
    (ha : pyLower (getNick f) ∈ allowedLower) :
    f ∈ (validate_memberships feeds members people).valid_feeds
    ∧ pyLower (getNick f) ∉ (validate_memberships feeds members people).lookup_calls
    ∧ ∀ e ∈ (validate_memberships feeds members people).removed_entries,
        getNick e ≠ getNick f := by
  have hcf : classifiedB f = false := by
    have hc : allowedLower.contains (pyLower (getNick f)) = true := by simpa using ha
    simp only [classifiedB]
    rw [hc]
    simp
  refine ⟨mem_valid_of_not_removable hf (by simp [specRemovable, hcf]), ?_, ?_⟩
  · rw [validate_lookup_calls_eq]
    intro hmem
    obtain ⟨n, hn, hne⟩ := List.mem_map.mp hmem
    obtain ⟨hnu, -⟩ := List.mem_filter.mp hn
    have := (mem_get_unique_nicks.mp hnu).2.2
    rw [hne] at this
    exact this ha
  · intro e he heq
    obtain ⟨g, -, hgr, hge⟩ := removed_origin he
    have hcg : classifiedB g = true := (specRemovable_iff.mp hgr).1
    have hgf : getNick g = getNick f := by rw [← hge, heq]
    have ha2 : pyLower (getNick g) ∈ allowedLower := by rw [hgf]; exact ha
    simp only [classifiedB, Bool.and_eq_true, Bool.not_eq_true'] at hcg
    have hcontains : allowedLower.contains (pyLower (getNick g)) = true := by
      simpa using ha2
    rw [hcg.2] at hcontains
    cases hcontains

/-- Witness for claim C7: the `UWN` record survives a run in which every
lookup would report the user as existing and the membership set is empty. -/
theorem allowed_nick_kept_never_looked_up_witness :
    uwnRec ∈ (validate_memberships [uwnRec] [] alwaysFound).valid_feeds
    ∧ pyLower (getNick uwnRec) ∉ (validate_memberships [uwnRec] [] alwaysFound).lookup_calls :=
  ⟨(allowed_nick_kept_never_looked_up [uwnRec] [] alwaysFound uwnRec
      (by simp) (by decide)).1,
   (allowed_nick_kept_never_looked_up [uwnRec] [] alwaysFound uwnRec
      (by simp) (by decide)).2.1⟩

/-- Claim C8: an identifier whose case-folded form is in the membership set is
classified `member` under every lookup behavior (the outcome is independent of
the lookup), its identifier is never passed to the lookup, and its records
survive. -/
theorem member_nick_shortcircuits_lookup (feeds : List Record) (members : List String)
    (people : String → LookupResult) (f : Record) (hf : f ∈ feeds)
    (hm : pyLower (getNick f) ∈ members) :
    (∀ people2 : String → LookupResult,
        check_single_nick members people2 (getNick f) = .member)
    ∧ pyLower (getNick f) ∉ (validate_memberships feeds members people).lookup_calls
    ∧ f ∈ (validate_memberships feeds members people).valid_feeds := by
  have hout : ∀ people2 : String → LookupResult,
      check_single_nick members people2 (getNick f) = .member := by
    intro people2
    rw [check_single_nick_eq, if_pos hm]
  refine ⟨hout, ?_, mem_valid_of_not_removable hf (by simp [specRemovable, hout people])⟩
  rw [validate_lookup_calls_eq]
  intro hmem
  obtain ⟨n, hn, hne⟩ := List.mem_map.mp hmem
  obtain ⟨-, hnc⟩ := List.mem_filter.mp hn
  rw [hne] at hnc
  simp only [Bool.not_eq_true'] at hnc
  have : members.contains (pyLower (getNick f)) = true := by simpa using hm
  rw [this] at hnc
  cases hnc

/-- Witness for claim C8: alice is kept and never looked up even under a
lookup that would report every nick as not found. -/
theorem member_nick_shortcircuits_lookup_witness :
    check_single_nick ["alice"] (fun _ => .keyError) (getNick aliceRec) = .member
    ∧ aliceRec ∈ (validate_memberships [aliceRec] ["alice"]
        (fun _ => .keyError)).valid_feeds :=
  ⟨(member_nick_shortcircuits_lookup [aliceRec] ["alice"] (fun _ => .keyError) aliceRec
      (by simp) (by decide)).1 (fun _ => .keyError),
   (member_nick_shortcircuits_lookup [aliceRec] ["alice"] (fun _ => .keyError) aliceRec
      (by simp) (by decide)).2.2⟩

/-- Claim C10: a record whose nick field is absent or empty is never
classified (the empty string never enters the unique-nick set), never looked
up, survives every run unchanged, and no removed entry has an empty nick —
for every membership set and lookup behavior. -/
theorem empty_nick_kept_untouched (feeds : List Record) (members : List String)
    (people : String → LookupResult) (f : Record) (hf : f ∈ feeds)
    (hn : rget f "nick" = none ∨ rget f "nick" = some (.str "")) :
    getNick f = ""
    ∧ "" ∉ get_unique_nicks feeds
    ∧ "" ∉ (validate_memberships feeds members people).lookup_calls
    ∧ f ∈ (validate_memberships feeds members people).valid_feeds
    ∧ ∀ e ∈ (validate_memberships feeds members people).removed_entries,
        getNick e ≠ "" := by
  have hgn : getNick f = "" := by
    rcases hn with h | h <;> · unfold getNick; rw [h]
  have hcf : classifiedB f = false := by
    simp [classifiedB, hgn]
  refine ⟨hgn, ?_, ?_, mem_valid_of_not_removable hf (by simp [specRemovable, hcf]), ?_⟩
  · intro hmem
    exact (mem_get_unique_nicks.mp hmem).2.1 rfl
  · rw [validate_lookup_calls_eq]
    intro hmem
    obtain ⟨n, hn2, hne⟩ := List.mem_map.mp hmem
    obtain ⟨hnu, -⟩ := List.mem_filter.mp hn2
    have := (mem_get_unique_nicks.mp hnu).2.1
    exact this (pyLower_eq_empty hne)
  · intro e he heq
    obtain ⟨g, -, hgr, hge⟩ := removed_origin he
    have hcg : classifiedB g = true := (specRemovable_iff.mp hgr).1
    simp only [classifiedB, Bool.and_eq_true, bne_iff_ne, ne_eq] at hcg
    exact hcg.1 (by rw [← hge, heq])

/-- Witness for claim C10: the nickless record survives alongside a removable
one. -/
theorem empty_nick_kept_untouched_witness :
    getNick noNickRec = ""
    ∧ noNickRec ∈ (validate_memberships [noNickRec, bobRec] [] alwaysFound).valid_feeds :=
  ⟨(empty_nick_kept_untouched [noNickRec, bobRec] [] alwaysFound noNickRec
      (by simp) (Or.inl (by rfl))).1,
   (empty_nick_kept_untouched [noNickRec, bobRec] [] alwaysFound noNickRec
      (by simp) (Or.inl (by rfl))).2.2.2.1⟩

/-- Claim C9: for every data file the loader accepts, saving the loaded
record list and reloading yields exactly the original record list — every
field of every record, known or unknown to the script, survives in value and
in order (`load_feeds (save_feeds feeds) = some feeds`). -/
theorem load_save_roundtrip (s : String) (feeds : List Record)
    (h : load_feeds s = some feeds) :
    load_feeds (save_feeds feeds) = some feeds := by
  unfold load_feeds at h
  split at h
  · rename_i items heq
    have hwf : JwfL items := by
      have := loads_jwf heq
      simpa [Jwf] using this
    have hitems : items = feeds.map Json.obj := mapM_unobj_eq items feeds h
    subst hitems
    unfold load_feeds save_feeds feedsToJson
    rw [loads_dumps (v := .arr (feeds.map Json.obj)) (by simpa [Jwf] using hwf)]
    exact mapM_unobj_map_obj feeds
  · exact absurd h (by simp)

/-- Witness for claim C9 at a concrete file: one record with an unknown
`extra` field and non-canonical whitespace loads, and survives the
save-reload round trip verbatim. -/
theorem load_save_roundtrip_witness :
    load_feeds wFile = some wRecs ∧ load_feeds (save_feeds wRecs) = some wRecs :=
  ⟨by rfl, load_save_roundtrip wFile wRecs (by rfl)⟩

end Terra
